import Mathlib

/-!
# redis-inventory: the scan coordinator (`src/scanner/scanner.go`)

A shallow embedding of `RedisScanner.Scan` together with its collaborators.

* The key source (`RedisServiceInterface`), the progress sink and the logger are
  observed through a trace of `Event`s: one event per call made by `Scan`.
* The worker goroutines are embedded as an interleaving state machine:
  every worker has a program point (`PC`), `step` executes one atomic action of
  one worker, and a schedule (a list of worker indices) drives the machine.
  A scheduled worker that is blocked (on the mutex) or finished does nothing.
* The channel returned by `ScanKeys` is the list of keys not yet received;
  the stream is finite and closed after its last key.
* `Scan` returns once every worker is done (`wg.Wait()`), and then calls `Stop`.
-/

namespace RedisInventory

/-! ## Data model -/

/-- Metric names used by the scanner: `trie.BytesSize` and `trie.KeysCount`. -/
inductive Param where
  | BytesSize
  | KeysCount
deriving DecidableEq, Repr

/-- The Go struct `trie.ParamValue{Param, Value}`. -/
structure ParamValue where
  Param : Param
  Value : Int
deriving DecidableEq, Repr

/-- The Go struct `adapter.ScanOptions`, with the fields set in `cmd/app/index.go`. -/
structure ScanOptions where
  ScanCount : Int
  Pattern : String
  Throttle : Int
  Workers : Int
deriving DecidableEq, Repr

/-- The Go interface `RedisServiceInterface`. An `error` is its message.
`ScanKeys` gives the keys delivered on the returned channel, in order. -/
structure RedisServiceInterface where
  ScanKeys : ScanOptions → List String
  GetKeysCount : Except String Int
  GetMemoryUsage : String → Except String Int

/-- One observable call made by `Scan`: on the key source, the progress sink,
the logger or the tree. -/
inductive Event where
  /-- The call `redisService.GetKeysCount(ctx)`. -/
  | getKeysCount
  /-- The entry `logger.Error().Err(err).Msgf("Error getting number of keys")`. -/
  | logErrorKeysCount (err : String)
  /-- The call `scanProgress.Start(totalCount)`. -/
  | start (total : Int)
  /-- The call `redisService.ScanKeys(ctx, options)`. -/
  | scanKeys (options : ScanOptions)
  /-- The call `redisService.GetMemoryUsage(ctx, key)`. -/
  | getMemoryUsage (key : String)
  /-- The entry `logger.Error().Err(err).Msgf("Error dumping key %s", key)`. -/
  | logErrorKey (err : String) (key : String)
  /-- The call `result.Add(key, paramValues...)` on the tree, made under the mutex. -/
  | add (key : String) (paramValues : List ParamValue)
  /-- The entry `logger.Debug().Msgf("Dump %s value: %d", key, res)`. -/
  | logDebug (key : String) (res : Int)
  /-- The call `scanProgress.Increment()`. -/
  | increment
  /-- The entry `logger.Info().Msgf("Worker %d done", worker+1)` of line 67; `n` is
  `worker+1` for the goroutine started in iteration `worker` of the loop of line 47. -/
  | logWorkerDone (n : Nat)
  /-- The call `scanProgress.Stop()`. -/
  | stop
deriving DecidableEq, Repr

/-- The program point of one worker goroutine (lines 50-68 and 83-87). -/
inductive PC (τ : Type) where
  /-- Line 51: about to receive from the channel `keys`. -/
  | recv
  /-- Line 52: about to call `GetMemoryUsage` for the received key. -/
  | query (key : String)
  /-- Line 54: about to log the query error, then `continue`. -/
  | logErr (key : String) (err : String)
  /-- Line 84: inside `threadSafeResult.Add`, about to `mutex.Lock()`. -/
  | lock (key : String) (res : Int)
  /-- Line 86: holding the mutex, about to enter `result.Add`. -/
  | add (key : String) (res : Int)
  /-- Inside `result.Add`: the tree was read (`seen`), the update is not yet written. -/
  | inAdd (key : String) (res : Int) (seen : τ)
  /-- Line 85 (deferred): `result.Add` returned, about to `mutex.Unlock()`. -/
  | unlock (key : String) (res : Int)
  /-- Line 64: about to write the debug entry. -/
  | logDebug (key : String) (res : Int)
  /-- Line 65: about to call `scanProgress.Increment()`. -/
  | incr
  /-- Line 67: the channel is closed and drained, about to log `Worker %d done`. -/
  | logDone
  /-- The goroutine returned (`wg.Done()` has run). -/
  | done

/-- The worker goroutine has returned. -/
def PC.isDone {τ : Type} : PC τ → Bool
  | .done => true
  | _ => false

/-- The worker holds the mutex (between `Lock` and `Unlock`). -/
def PC.inCS {τ : Type} : PC τ → Bool
  | .add _ _ => true
  | .inAdd _ _ _ => true
  | .unlock _ _ => true
  | _ => false

/-- The state shared by the goroutines of one `Scan` call. -/
structure State (τ : Type) where
  /-- The keys still to be received from the channel `keys`. -/
  keys : List String
  /-- The program point of every worker goroutine. -/
  workers : List (PC τ)
  /-- The mutex of `threadSafeResult`: `true` when locked. -/
  locked : Bool
  /-- The tree `threadSafeResult.result`. -/
  result : τ
  /-- The calls made so far, oldest first. -/
  trace : List Event

/-- The two parameter values the scanner passes to `Add` (lines 60-61). -/
def addParams (res : Int) : List ParamValue :=
  [{ Param := Param.BytesSize, Value := res }, { Param := Param.KeysCount, Value := 1 }]

/-! ## The aggregation tree

The package `src/trie` is not among the sources; the tree is modelled from
sections 3, 4.1 and 4.2 of the specification. The scanner itself is embedded
over an arbitrary tree type with an `Add` operation. -/

/-- Modelled from the spec: the Segmenter `Split` of section 4.1 (package `trie`,
not among the sources) on the runes of a key; `cur` holds the runes of the
current segment, last first. Empty segments are dropped. -/
def splitRunes (separators : List Char) : List Char → List Char → List String
  | [], cur => if cur.isEmpty then [] else [String.mk cur.reverse]
  | c :: cs, cur =>
    if c ∈ separators then
      (if cur.isEmpty then splitRunes separators cs []
       else String.mk cur.reverse :: splitRunes separators cs [])
    else splitRunes separators cs (c :: cur)

/-- Modelled from the spec: the Segmenter contract `Split(key)` of section 4.1
(package `trie`, not among the sources). -/
def Split (separators : List Char) (key : String) : List String :=
  splitRunes separators key.toList []

/-- Modelled from the spec: the Node of section 3 (package `trie`, not among the
sources): children by segment, accumulated metrics, the `isAggregated` marker,
and the synthetic summary child, if one was created. -/
inductive Node where
  | mk (children : List (String × Node)) (metrics : Param → Int) (isAggregated : Bool)
      (aggregated : Option Node)

/-- Modelled from the spec: the children mapping of a Node (section 3). -/
def Node.children : Node → List (String × Node)
  | .mk c _ _ _ => c

/-- Modelled from the spec: the accumulated metric values of a Node (section 3). -/
def Node.metrics : Node → Param → Int
  | .mk _ m _ _ => m

/-- Modelled from the spec: the `isAggregated` marker of a Node (section 3). -/
def Node.isAggregated : Node → Bool
  | .mk _ _ a _ => a

/-- Modelled from the spec: the synthetic aggregated child of a Node (section 3). -/
def Node.aggregated : Node → Option Node
  | .mk _ _ _ g => g

/-- Modelled from the spec: a Node created lazily on first insertion (section 3),
with no children and all metrics zero. -/
def Node.empty (isAggregated : Bool) : Node := .mk [] (fun _ => 0) isAggregated none

/-- Modelled from the spec: adding one supplied metric value to running totals
(section 4.2). -/
def addValue (m : Param → Int) (pv : ParamValue) : Param → Int :=
  fun p => if p = pv.Param then m p + pv.Value else m p

/-- Modelled from the spec: "adds each supplied metric value to that node's
running totals" (section 4.2). -/
def Node.addValues (n : Node) (paramValues : List ParamValue) : Node :=
  .mk n.children (paramValues.foldl addValue n.metrics) n.isAggregated n.aggregated

/-- Modelled from the spec: replacing the child stored under a segment. -/
def replaceChild (seg : String) (child : Node) : List (String × Node) → List (String × Node)
  | [] => []
  | (s, c) :: rest =>
    if s = seg then (s, child) :: rest else (s, c) :: replaceChild seg child rest

/-- Modelled from the spec: the walk of `Add` of section 4.2 (package `trie`, not
among the sources). Every node on the path receives the metric values; a
matching child is descended into; a new child is created while the node has
fewer than `maxChildren` children; otherwise the rest of the insertion goes to
the node's single synthetic aggregated child, which does not recurse. -/
def Node.insert (maxChildren : Int) (paramValues : List ParamValue) :
    List String → Node → Node
  | [], n => n.addValues paramValues
  | seg :: rest, n =>
    let n1 := n.addValues paramValues
    match n1.children.lookup seg with
    | some child =>
      .mk (replaceChild seg (Node.insert maxChildren paramValues rest child) n1.children)
        n1.metrics n1.isAggregated n1.aggregated
    | none =>
      if (n1.children.length : Int) < maxChildren then
        .mk (n1.children ++ [(seg, Node.insert maxChildren paramValues rest (Node.empty false))])
          n1.metrics n1.isAggregated n1.aggregated
      else
        .mk n1.children n1.metrics n1.isAggregated
          (some ((n1.aggregated.getD (Node.empty true)).addValues paramValues))

/-- Modelled from the spec: the Tree of section 3 (package `trie`, not among the
sources): the root Node, the separator set of the Segmenter and `maxChildren`. -/
structure Trie where
  root : Node
  separators : List Char
  maxChildren : Int

/-- Modelled from the spec: the empty tree built by `trie.NewTrie` (package `trie`,
not among the sources). -/
def NewTrie (separators : List Char) (maxChildren : Int) : Trie :=
  { root := Node.empty false, separators := separators, maxChildren := maxChildren }

/-- Modelled from the spec: `Add(key, metricValues...)` of section 4.2 (package
`trie`, not among the sources). -/
def Trie.Add (t : Trie) (key : String) (paramValues : List ParamValue) : Trie :=
  { t with root := t.root.insert t.maxChildren paramValues (Split t.separators key) }

/-- Modelled from the spec: the read accessor `Root()` of section 4.2 (package
`trie`, not among the sources). -/
def Trie.Root (t : Trie) : Node := t.root

/-! ## The worker loop -/

section Machine

variable {τ : Type}

/-- One atomic action of worker `i` (lines 51-67 and 84-86); `none` when the
worker does not exist, is blocked on the mutex, or has returned. -/
def step (svc : RedisServiceInterface) (trieAdd : τ → String → List ParamValue → τ)
    (i : Nat) (s : State τ) : Option (State τ) :=
  match s.workers[i]? with
  | none => none
  | some pc =>
    match pc with
    | .recv =>
      match s.keys with
      | [] => some { s with workers := s.workers.set i .logDone }
      | key :: rest => some { s with keys := rest, workers := s.workers.set i (.query key) }
    | .query key =>
      match svc.GetMemoryUsage key with
      | .error err =>
        some { s with workers := s.workers.set i (.logErr key err),
                      trace := s.trace ++ [.getMemoryUsage key] }
      | .ok res =>
        some { s with workers := s.workers.set i (.lock key res),
                      trace := s.trace ++ [.getMemoryUsage key] }
    | .logErr key err =>
      some { s with workers := s.workers.set i .recv,
                    trace := s.trace ++ [.logErrorKey err key] }
    | .lock key res =>
      if s.locked then none
      else some { s with workers := s.workers.set i (.add key res), locked := true }
    | .add key res =>
      some { s with workers := s.workers.set i (.inAdd key res s.result) }
    | .inAdd key res seen =>
      some { s with workers := s.workers.set i (.unlock key res),
                    result := trieAdd seen key (addParams res),
                    trace := s.trace ++ [.add key (addParams res)] }
    | .unlock key res =>
      some { s with workers := s.workers.set i (.logDebug key res), locked := false }
    | .logDebug key res =>
      some { s with workers := s.workers.set i .incr,
                    trace := s.trace ++ [.logDebug key res] }
    | .incr =>
      some { s with workers := s.workers.set i .recv,
                    trace := s.trace ++ [.increment] }
    | .logDone =>
      some { s with workers := s.workers.set i .done,
                    trace := s.trace ++ [.logWorkerDone (i + 1)] }
    | .done => none

/-- Run the workers under a schedule: the listed workers act one after another;
a scheduled worker that cannot act leaves the state as it is. -/
def run (svc : RedisServiceInterface) (trieAdd : τ → String → List ParamValue → τ) :
    List Nat → State τ → State τ
  | [], s => s
  | i :: rest, s => run svc trieAdd rest ((step svc trieAdd i s).getD s)

/-! ## `Scan` -/

/-- The method `RedisScanner.getKeysCount` (lines 89-97): the count and the calls made. -/
def getKeysCount (svc : RedisServiceInterface) : Int × List Event :=
  match svc.GetKeysCount with
  | .error err => (0, [.getKeysCount, .logErrorKeysCount err])
  | .ok res => (res, [.getKeysCount])

/-- Lines 37-40: `totalCount` and the calls made to obtain it. -/
def totalCount (svc : RedisServiceInterface) (options : ScanOptions) : Int × List Event :=
  if options.Pattern = "*" ∨ options.Pattern = "" then getKeysCount svc else (0, [])

/-- The calls of lines 37-46, made before any worker is started. -/
def prologue (svc : RedisServiceInterface) (options : ScanOptions) : List Event :=
  (totalCount svc options).2 ++ [.start (totalCount svc options).1, .scanKeys options]

/-- The state after lines 37-69: the progress sink is started, the channel is
open, and `options.Workers` goroutines (none when it is not positive) are at
the head of their loop. -/
def scanInit (svc : RedisServiceInterface) (options : ScanOptions) (result : τ) : State τ :=
  { keys := svc.ScanKeys options
    workers := List.replicate options.Workers.toNat .recv
    locked := false
    result := result
    trace := prologue svc options }

/-- Every worker goroutine has returned: `wg.Wait()` does not block. -/
def allDone (s : State τ) : Bool := s.workers.all PC.isDone

/-- The method `RedisScanner.Scan` (lines 36-72) under a schedule of its workers.
`none`: after the schedule some worker has not returned, `wg.Wait()` still blocks.
`some s`: `Scan` returned; `s.result` is the tree and `s.trace` the calls made. -/
def Scan (svc : RedisServiceInterface) (trieAdd : τ → String → List ParamValue → τ)
    (options : ScanOptions) (result : τ) (sched : List Nat) : Option (State τ) :=
  let s := run svc trieAdd sched (scanInit svc options result)
  if allDone s then some { s with trace := s.trace ++ [.stop] } else none

/-- A schedule that lets each of `n` workers act in turn, `rounds` times over. -/
def roundRobin (n : Nat) : Nat → List Nat
  | 0 => []
  | rounds + 1 => List.range n ++ roundRobin n rounds

/-! ## Reading a trace -/

/-- The call is made by a worker goroutine (lines 51-67). -/
def Event.isWorker : Event → Bool
  | .getMemoryUsage _ => true
  | .logErrorKey _ _ => true
  | .add _ _ => true
  | .logDebug _ _ => true
  | .increment => true
  | .logWorkerDone _ => true
  | _ => false

/-- The entry is a worker's `Worker %d done`. -/
def Event.isWorkerDone : Event → Bool
  | .logWorkerDone _ => true
  | _ => false

/-- The call is an `Add` on the tree. -/
def Event.isAdd : Event → Bool
  | .add _ _ => true
  | _ => false

/-- The entry is the error log of a failed `GetMemoryUsage`. -/
def Event.isLogErrorKey : Event → Bool
  | .logErrorKey _ _ => true
  | _ => false

/-- The call is made on the progress sink (`Start`, `Increment` or `Stop`). -/
def Event.isProgress : Event → Bool
  | .start _ => true
  | .increment => true
  | .stop => true
  | _ => false

/-- The key of a `GetMemoryUsage` call. -/
def Event.queriedKey : Event → Option String
  | .getMemoryUsage key => some key
  | _ => none

/-- The `Add` call owed for a key: made when `GetMemoryUsage` succeeds, with
`BytesSize` = the returned cost and `KeysCount` = 1, in that order. -/
def addCall (svc : RedisServiceInterface) (key : String) : Option Event :=
  match svc.GetMemoryUsage key with
  | .ok res => some (.add key [{ Param := Param.BytesSize, Value := res },
                               { Param := Param.KeysCount, Value := 1 }])
  | .error _ => none

/-- The error entry owed for a key: written when `GetMemoryUsage` fails, naming the key. -/
def errorEntry (svc : RedisServiceInterface) (key : String) : Option Event :=
  match svc.GetMemoryUsage key with
  | .ok _ => none
  | .error err => some (.logErrorKey err key)

/-- The cost of a key, when `GetMemoryUsage` succeeds for it. -/
def cost (svc : RedisServiceInterface) (key : String) : Option Int :=
  match svc.GetMemoryUsage key with
  | .ok res => some res
  | .error _ => none

/-- `GetMemoryUsage` fails for the key. -/
def fails (svc : RedisServiceInterface) (key : String) : Bool :=
  match svc.GetMemoryUsage key with
  | .ok _ => false
  | .error _ => true

/-- The calls `Scan` makes for one key received from the channel (lines 52-65). -/
def keyBlock (svc : RedisServiceInterface) (key : String) : List Event :=
  match svc.GetMemoryUsage key with
  | .error err => [.getMemoryUsage key, .logErrorKey err key]
  | .ok res => [.getMemoryUsage key, .add key (addParams res), .logDebug key res, .increment]

/-- The tree obtained by performing, one after another and in the order of the
trace, the `Add` calls recorded in it. -/
def applyAdds (trieAdd : τ → String → List ParamValue → τ) (t : τ) (trace : List Event) : τ :=
  trace.foldl (fun acc e => match e with
    | .add key paramValues => trieAdd acc key paramValues
    | _ => acc) t

/-- What an `Add` call adds to the metric `p` of every node on its path. -/
def addedValue (p : Param) : Event → Int
  | .add _ paramValues => ((paramValues.filter (fun pv => pv.Param = p)).map (·.Value)).sum
  | _ => 0

/-! ## Invariants of the worker machine -/

/-- Total of a per-worker quantity over all workers. -/
def wsum (f : PC τ → Nat) (ws : List (PC τ)) : Nat := (ws.map f).sum

/-- The calls a worker at a program point still makes before it is back at the
head of its loop. -/
def pending (svc : RedisServiceInterface) : PC τ → List Event
  | .recv => []
  | .query key => keyBlock svc key
  | .logErr key err => [.logErrorKey err key]
  | .lock key res => [.add key (addParams res), .logDebug key res, .increment]
  | .add key res => [.add key (addParams res), .logDebug key res, .increment]
  | .inAdd key res _ => [.add key (addParams res), .logDebug key res, .increment]
  | .unlock key res => [.logDebug key res, .increment]
  | .logDebug key res => [.logDebug key res, .increment]
  | .incr => [.increment]
  | .logDone => []
  | .done => []

/-- How often the call `e` is among the pending calls of a worker. -/
def pendCount (svc : RedisServiceInterface) (e : Event) (pc : PC τ) : Nat :=
  List.count e (pending svc pc)

/-- What one action of worker `i` changes: program point, channel, mutex and
tree before and after, and the calls made. -/
inductive Trans (svc : RedisServiceInterface) (trieAdd : τ → String → List ParamValue → τ)
    (i : Nat) : PC τ → List String → Bool → τ → PC τ → List String → Bool → τ →
    List Event → Prop where
  | recvClosed (l : Bool) (r : τ) : Trans svc trieAdd i .recv [] l r .logDone [] l r []
  | recvKey (k : String) (ks : List String) (l : Bool) (r : τ) :
      Trans svc trieAdd i .recv (k :: ks) l r (.query k) ks l r []
  | queryErr (k : String) (err : String) (ks : List String) (l : Bool) (r : τ) :
      svc.GetMemoryUsage k = .error err →
      Trans svc trieAdd i (.query k) ks l r (.logErr k err) ks l r [.getMemoryUsage k]
  | queryOk (k : String) (res : Int) (ks : List String) (l : Bool) (r : τ) :
      svc.GetMemoryUsage k = .ok res →
      Trans svc trieAdd i (.query k) ks l r (.lock k res) ks l r [.getMemoryUsage k]
  | logErr (k : String) (err : String) (ks : List String) (l : Bool) (r : τ) :
      Trans svc trieAdd i (.logErr k err) ks l r .recv ks l r [.logErrorKey err k]
  | lock (k : String) (res : Int) (ks : List String) (r : τ) :
      Trans svc trieAdd i (.lock k res) ks false r (.add k res) ks true r []
  | add (k : String) (res : Int) (ks : List String) (l : Bool) (r : τ) :
      Trans svc trieAdd i (.add k res) ks l r (.inAdd k res r) ks l r []
  | inAdd (k : String) (res : Int) (seen : τ) (ks : List String) (l : Bool) (r : τ) :
      Trans svc trieAdd i (.inAdd k res seen) ks l r (.unlock k res) ks l
        (trieAdd seen k (addParams res)) [.add k (addParams res)]
  | unlock (k : String) (res : Int) (ks : List String) (l : Bool) (r : τ) :
      Trans svc trieAdd i (.unlock k res) ks l r (.logDebug k res) ks false r []
  | logDebug (k : String) (res : Int) (ks : List String) (l : Bool) (r : τ) :
      Trans svc trieAdd i (.logDebug k res) ks l r .incr ks l r [.logDebug k res]
  | incr (ks : List String) (l : Bool) (r : τ) :
      Trans svc trieAdd i .incr ks l r .recv ks l r [.increment]
  | logDone (ks : List String) (l : Bool) (r : τ) :
      Trans svc trieAdd i .logDone ks l r .done ks l r [.logWorkerDone (i + 1)]

/-- Counts a worker that holds the mutex. -/
def csCount (pc : PC τ) : Nat := if pc.inCS then 1 else 0

/-- Counts a worker that is inside the tree's `Add`. -/
def inAddCount : PC τ → Nat
  | .inAdd _ _ _ => 1
  | _ => 0

/-- The worker is inside the tree's `Add`. -/
def PC.isInAdd : PC τ → Bool
  | .inAdd _ _ _ => true
  | _ => false

/-- Counts a worker that has left its loop (the channel was closed and drained). -/
def exitedCount : PC τ → Nat
  | .logDone => 1
  | .done => 1
  | _ => 0

/-- Counts a worker whose `Add` is recorded and whose `Increment` is still to come. -/
def owedIncrement : PC τ → Nat
  | .unlock _ _ => 1
  | .logDebug _ _ => 1
  | .incr => 1
  | _ => 0

/-- The worker-done entry the only worker of a sequential scan still owes. -/
def owedDone : PC τ → List Event
  | .done => []
  | _ => [.logWorkerDone 1]

/-- A worker inside the tree's `Add` has read the tree as it is now. -/
def snapOK (t : τ) : PC τ → Prop
  | .inAdd _ _ seen => seen = t
  | _ => True

/-- The number of actions a worker still takes before it is back at the head
of its loop or has returned, the head of the loop counting 2. -/
def pcWeight : PC τ → Nat
  | .done => 0
  | .logDone => 1
  | .recv => 2
  | .incr => 3
  | .logErr _ _ => 3
  | .logDebug _ _ => 4
  | .unlock _ _ => 5
  | .inAdd _ _ _ => 6
  | .add _ _ => 7
  | .lock _ _ => 8
  | .query _ => 9

/-- A bound on the number of actions the workers can still take. -/
def workLeft (s : State τ) : Nat := wsum pcWeight s.workers + 10 * s.keys.length

/-- Mutual exclusion: the mutex is locked exactly when one worker is between
`Lock` and `Unlock`, no second worker is; a worker inside the tree's `Add`
works on the current tree; and the tree is the result of the recorded `Add`
calls applied one after another to the initial tree. -/
structure MutexInv (trieAdd : τ → String → List ParamValue → τ) (t0 : τ) (s : State τ) :
    Prop where
  count : wsum csCount s.workers = if s.locked then 1 else 0
  snap : ∀ pc ∈ s.workers, snapOK s.result pc
  fold : s.result = applyAdds trieAdd t0 s.trace

/-- Shape of the trace: the calls of lines 37-46, then calls of workers only. -/
def ShapeInv (pre : List Event) (s : State τ) : Prop :=
  ∃ rest, s.trace = pre ++ rest ∧ ∀ e ∈ rest, e.isWorker = true

/-- Once a worker has left its loop the channel is drained. -/
def ChanInv (s : State τ) : Prop := wsum exitedCount s.workers = 0 ∨ s.keys = []

/-- Counting invariant: every call other than a worker-done entry that was made,
is still owed by a worker, or is owed for a key in the channel, is accounted for. -/
def CountInv (svc : RedisServiceInterface) (target : List Event) (s : State τ) : Prop :=
  ∀ e : Event, (∀ n, e ≠ .logWorkerDone n) →
    List.count e s.trace + wsum (pendCount svc e) s.workers
      + List.count e (s.keys.flatMap (keyBlock svc)) = List.count e target

/-- Every `Increment` follows an `Add` of the same worker for the same key:
the `Add` calls made are the `Increment` calls made plus those still owed. -/
def IncrInv (s : State τ) : Prop :=
  List.count Event.increment s.trace + wsum owedIncrement s.workers
    = (s.trace.filter Event.isAdd).length

/-- Sequential scan (one worker): the calls made, the calls the worker still
owes for its current key, the calls owed for the keys in the channel and the
worker-done entry make up `target`, in this order. -/
def SeqInv (svc : RedisServiceInterface) (target : List Event) (s : State τ) : Prop :=
  ∃ pc, s.workers = [pc] ∧ (exitedCount pc = 0 ∨ s.keys = []) ∧
    s.trace ++ pending svc pc ++ s.keys.flatMap (keyBlock svc) ++ owedDone pc = target

/-- Two states of two scans agree on channel, workers, mutex and tree, and their
traces agree after the calls `p1` and `p2` made before the workers. -/
def SameUpTo (p1 p2 : List Event) (s1 s2 : State τ) : Prop :=
  s1.keys = s2.keys ∧ s1.workers = s2.workers ∧ s1.locked = s2.locked ∧
    s1.result = s2.result ∧ ∃ rest, s1.trace = p1 ++ rest ∧ s2.trace = p2 ++ rest

/-! ## Examples -/

/-- A key source for examples: three keys, the cost query fails for one of them. -/
def exService : RedisServiceInterface :=
  { ScanKeys := fun _ => ["a:1", "bad", "a:2"]
    GetKeysCount := .ok 3
    GetMemoryUsage := fun key =>
      if key = "a:1" then .ok 10 else if key = "a:2" then .ok 20 else .error "no such key" }

/-- A key source for examples whose key count query fails. -/
def exServiceNoCount : RedisServiceInterface :=
  { exService with GetKeysCount := .error "connection refused" }

/-- Example options: the defaults of `cmd/app/index.go`, with two workers. -/
def exOptions : ScanOptions :=
  { ScanCount := 1000, Pattern := "*", Throttle := 0, Workers := 2 }

/-- Example options: the defaults of `cmd/app/index.go` (one worker). -/
def exOptionsSeq : ScanOptions :=
  { ScanCount := 1000, Pattern := "*", Throttle := 0, Workers := 1 }

/-- Example options with a restricting pattern. -/
def exOptionsPattern : ScanOptions :=
  { ScanCount := 1000, Pattern := "a:*", Throttle := 0, Workers := 2 }

/-- Example options with the empty pattern. -/
def exOptionsEmpty : ScanOptions :=
  { ScanCount := 1000, Pattern := "", Throttle := 0, Workers := 2 }

/-- Example options with no worker. -/
def exOptionsIdle : ScanOptions :=
  { ScanCount := 1000, Pattern := "*", Throttle := 0, Workers := 0 }

/-- Example tree: empty, separator `:`, at most ten children per node. -/
def exTrie : Trie := NewTrie [':'] 10

/-- Example schedule: two workers taking turns. -/
def exSchedule : List Nat := roundRobin 2 13

/-- Example schedule for one worker. -/
def exScheduleSeq : List Nat := List.replicate 21 0

/-- Example schedule with contention: worker 1 reaches `Lock` while worker 0
holds the mutex and has to wait. -/
def exScheduleContended : List Nat :=
  [0, 0, 0, 1, 1, 1, 1, 1, 1, 0, 1] ++ roundRobin 2 13

/-! ## The worker machine: basic lemmas -/

theorem wsum_set (f : PC τ → Nat) : ∀ (ws : List (PC τ)) (i : Nat) (pc pc' : PC τ),
    ws[i]? = some pc → wsum f (ws.set i pc') + f pc = wsum f ws + f pc' := by
  intro ws
  induction ws with
  | nil => intro i pc pc' h; simp at h
  | cons w ws ih =>
    intro i pc pc' h
    cases i with
    | zero =>
      simp at h
      subst h
      simp [wsum]
      omega
    | succ j =>
      simp at h
      have := ih j pc pc' h
      simp [wsum] at this ⊢
      omega

theorem run_invariant (svc : RedisServiceInterface) (trieAdd : τ → String → List ParamValue → τ)
    (P : State τ → Prop)
    (hstep : ∀ i s s', P s → step svc trieAdd i s = some s' → P s') :
    ∀ sched s, P s → P (run svc trieAdd sched s) := by
  intro sched
  induction sched with
  | nil => intro s h; exact h
  | cons i rest ih =>
    intro s h
    simp only [run]
    apply ih
    cases hs : step svc trieAdd i s with
    | none => simpa using h
    | some s' => simpa using hstep i s s' h hs

theorem step_char (svc : RedisServiceInterface) (trieAdd : τ → String → List ParamValue → τ)
    (i : Nat) (ks : List String) (ws : List (PC τ)) (l : Bool) (r : τ) (tr : List Event)
    (s' : State τ) (hs : step svc trieAdd i ⟨ks, ws, l, r, tr⟩ = some s') :
    ∃ pc pc' ks' l' r' evs, ws[i]? = some pc ∧
      Trans svc trieAdd i pc ks l r pc' ks' l' r' evs ∧
      s' = ⟨ks', ws.set i pc', l', r', tr ++ evs⟩ := by
  unfold step at hs
  simp only at hs
  split at hs
  · simp at hs
  · rename_i pc hpc
    refine ⟨pc, ?_⟩
    split at hs
    · split at hs
      · simp at hs; subst hs
        exact ⟨_, _, _, _, [], hpc, Trans.recvClosed _ _, by simp⟩
      · simp at hs; subst hs
        exact ⟨_, _, _, _, [], hpc, Trans.recvKey _ _ _ _, by simp⟩
    · split at hs
      · rename_i err he
        simp at hs; subst hs
        exact ⟨_, _, _, _, _, hpc, Trans.queryErr _ _ _ _ _ he, rfl⟩
      · rename_i res he
        simp at hs; subst hs
        exact ⟨_, _, _, _, _, hpc, Trans.queryOk _ _ _ _ _ he, rfl⟩
    · simp at hs; subst hs
      exact ⟨_, _, _, _, _, hpc, Trans.logErr _ _ _ _ _, rfl⟩
    · split at hs
      · simp at hs
      · rename_i hl
        simp at hs; subst hs
        simp at hl; subst hl
        exact ⟨_, _, _, _, [], hpc, Trans.lock _ _ _ _, by simp⟩
    · simp at hs; subst hs
      exact ⟨_, _, _, _, [], hpc, Trans.add _ _ _ _ _, by simp⟩
    · simp at hs; subst hs
      exact ⟨_, _, _, _, _, hpc, Trans.inAdd _ _ _ _ _ _, rfl⟩
    · simp at hs; subst hs
      exact ⟨_, _, _, _, [], hpc, Trans.unlock _ _ _ _ _, by simp⟩
    · simp at hs; subst hs
      exact ⟨_, _, _, _, _, hpc, Trans.logDebug _ _ _ _ _, rfl⟩
    · simp at hs; subst hs
      exact ⟨_, _, _, _, _, hpc, Trans.incr _ _ _, rfl⟩
    · simp at hs; subst hs
      exact ⟨_, _, _, _, _, hpc, Trans.logDone _ _ _, rfl⟩
    · simp at hs

theorem countInv_step (svc : RedisServiceInterface) (trieAdd : τ → String → List ParamValue → τ)
    (target : List Event) (i : Nat) (s s' : State τ)
    (h : CountInv svc target s) (hs : step svc trieAdd i s = some s') :
    CountInv svc target s' := by
  intro e he
  have h0 := h e he
  obtain ⟨ks, ws, l, r, tr⟩ := s
  obtain ⟨pc, pc', ks', l', r', evs, hpc, ht, rfl⟩ := step_char svc trieAdd i ks ws l r tr s' hs
  have hset := wsum_set (pendCount svc e) ws i pc pc' hpc
  cases ht <;> simp [pendCount, pending, keyBlock, List.count_cons, *] at hset h0 ⊢ <;> try omega

theorem wsum_eq_zero (f : PC τ → Nat) : ∀ (ws : List (PC τ)), wsum f ws = 0 →
    ∀ pc ∈ ws, f pc = 0 := by
  intro ws
  induction ws with
  | nil => intro _ pc h; simp at h
  | cons w ws ih =>
    intro h pc hpc
    simp [wsum] at h
    rcases List.mem_cons.1 hpc with rfl | hmem
    · exact h.1
    · exact ih (by simpa [wsum] using h.2) pc hmem

theorem wsum_le (f g : PC τ → Nat) (hfg : ∀ pc, f pc ≤ g pc) :
    ∀ (ws : List (PC τ)), wsum f ws ≤ wsum g ws := by
  intro ws
  induction ws with
  | nil => simp [wsum]
  | cons w ws ih =>
    have := hfg w
    simp [wsum] at ih ⊢
    omega

theorem applyAdds_append (trieAdd : τ → String → List ParamValue → τ) (t : τ)
    (xs ys : List Event) :
    applyAdds trieAdd t (xs ++ ys) = applyAdds trieAdd (applyAdds trieAdd t xs) ys := by
  simp [applyAdds, List.foldl_append]

theorem step_length (svc : RedisServiceInterface) (trieAdd : τ → String → List ParamValue → τ)
    (i : Nat) (s s' : State τ) (hs : step svc trieAdd i s = some s') :
    s'.workers.length = s.workers.length := by
  obtain ⟨ks, ws, l, r, tr⟩ := s
  obtain ⟨pc, pc', ks', l', r', evs, hpc, ht, rfl⟩ := step_char svc trieAdd i ks ws l r tr s' hs
  simp

theorem shapeInv_step (svc : RedisServiceInterface) (trieAdd : τ → String → List ParamValue → τ)
    (pre : List Event) (i : Nat) (s s' : State τ)
    (h : ShapeInv pre s) (hs : step svc trieAdd i s = some s') : ShapeInv pre s' := by
  obtain ⟨rest, hrest, hall⟩ := h
  obtain ⟨ks, ws, l, r, tr⟩ := s
  obtain ⟨pc, pc', ks', l', r', evs, hpc, ht, rfl⟩ := step_char svc trieAdd i ks ws l r tr s' hs
  simp only at hrest
  refine ⟨rest ++ evs, by simp [hrest], ?_⟩
  intro e he
  rcases List.mem_append.1 he with h1 | h1
  · exact hall e h1
  · cases ht <;> simp at h1 <;> subst h1 <;> rfl

theorem chanInv_step (svc : RedisServiceInterface) (trieAdd : τ → String → List ParamValue → τ)
    (i : Nat) (s s' : State τ)
    (h : ChanInv s) (hs : step svc trieAdd i s = some s') : ChanInv s' := by
  obtain ⟨ks, ws, l, r, tr⟩ := s
  obtain ⟨pc, pc', ks', l', r', evs, hpc, ht, rfl⟩ := step_char svc trieAdd i ks ws l r tr s' hs
  have hset := wsum_set exitedCount ws i pc pc' hpc
  unfold ChanInv at h ⊢
  simp only at h ⊢
  cases ht <;> simp [exitedCount] at hset h ⊢ <;>
    first | omega | (rcases h with h | h <;> first | (left; omega) | (right; exact h))

theorem workLeft_step (svc : RedisServiceInterface) (trieAdd : τ → String → List ParamValue → τ)
    (i : Nat) (s s' : State τ) (hs : step svc trieAdd i s = some s') :
    workLeft s' < workLeft s := by
  obtain ⟨ks, ws, l, r, tr⟩ := s
  obtain ⟨pc, pc', ks', l', r', evs, hpc, ht, rfl⟩ := step_char svc trieAdd i ks ws l r tr s' hs
  have hset := wsum_set pcWeight ws i pc pc' hpc
  unfold workLeft
  simp only
  cases ht <;> simp [pcWeight] at hset ⊢ <;> omega

theorem snapOK_of_inAddCount (t : τ) (pc : PC τ) (h : inAddCount pc = 0) : snapOK t pc := by
  cases pc <;> simp [inAddCount, snapOK] at h ⊢

theorem inAddCount_le_csCount (pc : PC τ) : inAddCount pc ≤ csCount pc := by
  cases pc <;> simp [inAddCount, csCount, PC.inCS]

theorem mutexInv_step (svc : RedisServiceInterface) (trieAdd : τ → String → List ParamValue → τ)
    (t0 : τ) (i : Nat) (s s' : State τ)
    (h : MutexInv trieAdd t0 s) (hs : step svc trieAdd i s = some s') :
    MutexInv trieAdd t0 s' := by
  obtain ⟨ks, ws, l, r, tr⟩ := s
  obtain ⟨pc, pc', ks', l', r', evs, hpc, ht, rfl⟩ := step_char svc trieAdd i ks ws l r tr s' hs
  obtain ⟨hc, hsnap, hfold⟩ := h
  simp only at hc hsnap hfold
  have hset := wsum_set csCount ws i pc pc' hpc
  have hset2 := wsum_set inAddCount ws i pc pc' hpc
  have hle := wsum_le inAddCount csCount inAddCount_le_csCount ws
  have hmem : pc ∈ ws := List.getElem?_mem hpc
  have hcle : wsum csCount ws ≤ 1 := by rw [hc]; split <;> omega
  cases ht
  case inAdd k res seen =>
    have hseen : seen = r := hsnap _ hmem
    subst hseen
    refine ⟨?_, ?_, ?_⟩
    · simp [csCount, PC.inCS] at hset ⊢
      omega
    · intro q hq
      simp only at hq
      apply snapOK_of_inAddCount
      simp [inAddCount] at hset2
      exact wsum_eq_zero inAddCount (ws.set i (.unlock k res)) (by omega) q hq
    · simp [applyAdds_append, ← hfold]
      simp [applyAdds]
  all_goals
    refine ⟨?_, ?_, ?_⟩
    · simp [csCount, PC.inCS] at hset hc ⊢
      omega
    · intro q hq
      rcases List.mem_or_eq_of_mem_set hq with h1 | h1
      · exact hsnap q h1
      · subst h1; simp [snapOK]
    · simp [applyAdds_append, ← hfold]
      try simp [applyAdds]

theorem wsum_pos (f : PC τ → Nat) : ∀ (ws : List (PC τ)), 0 < wsum f ws →
    ∃ pc ∈ ws, 0 < f pc := by
  intro ws
  induction ws with
  | nil => intro h; simp [wsum] at h
  | cons w ws ih =>
    intro h
    by_cases hw : 0 < f w
    · exact ⟨w, by simp, hw⟩
    · have : 0 < wsum f ws := by simp [wsum] at h ⊢; omega
      obtain ⟨pc, hm, hp⟩ := ih this
      exact ⟨pc, by simp [hm], hp⟩

theorem step_enabled (svc : RedisServiceInterface) (trieAdd : τ → String → List ParamValue → τ)
    (i : Nat) (s : State τ) (pc : PC τ) (hpc : s.workers[i]? = some pc)
    (hnd : pc.isDone = false) (hfree : s.locked = false ∨ pc.inCS = true) :
    ∃ s', step svc trieAdd i s = some s' := by
  unfold step
  rw [hpc]
  cases pc <;> simp [PC.isDone, PC.inCS] at hnd hfree ⊢
  · cases s.keys <;> simp
  · cases svc.GetMemoryUsage _ <;> simp
  · simp [hfree]

theorem exists_step (svc : RedisServiceInterface) (trieAdd : τ → String → List ParamValue → τ)
    (s : State τ) (hc : wsum csCount s.workers = if s.locked then 1 else 0)
    (hnd : allDone s = false) : ∃ i s', step svc trieAdd i s = some s' := by
  by_cases hl : s.locked = true
  · have hpos : 0 < wsum csCount s.workers := by rw [hc]; simp [hl]
    obtain ⟨pc, hm, hp⟩ := wsum_pos csCount _ hpos
    obtain ⟨i, hi⟩ := List.getElem?_of_mem hm
    have hcs : pc.inCS = true := by
      unfold csCount at hp
      split at hp
      · assumption
      · omega
    have hd : pc.isDone = false := by cases pc <;> simp [PC.isDone, PC.inCS] at hcs ⊢
    obtain ⟨s', hs'⟩ := step_enabled svc trieAdd i s pc hi hd (Or.inr hcs)
    exact ⟨i, s', hs'⟩
  · simp at hl
    simp [allDone] at hnd
    obtain ⟨pc, hm, hd⟩ := hnd
    obtain ⟨i, hi⟩ := List.getElem?_of_mem hm
    obtain ⟨s', hs'⟩ := step_enabled svc trieAdd i s pc hi (by simpa using hd) (Or.inl hl)
    exact ⟨i, s', hs'⟩

theorem run_append (svc : RedisServiceInterface) (trieAdd : τ → String → List ParamValue → τ) :
    ∀ (xs ys : List Nat) (s : State τ),
      run svc trieAdd (xs ++ ys) s = run svc trieAdd ys (run svc trieAdd xs s) := by
  intro xs
  induction xs with
  | nil => intro ys s; rfl
  | cons i rest ih => intro ys s; simp [run, ih]

theorem exists_completion (svc : RedisServiceInterface)
    (trieAdd : τ → String → List ParamValue → τ) (t0 : τ) :
    ∀ (n : Nat) (s : State τ), workLeft s ≤ n → MutexInv trieAdd t0 s →
      ∃ ext, allDone (run svc trieAdd ext s) = true := by
  intro n
  induction n with
  | zero =>
    intro s hn hinv
    by_cases hd : allDone s = true
    · exact ⟨[], hd⟩
    · simp at hd
      obtain ⟨i, s', hs'⟩ := exists_step svc trieAdd s hinv.count hd
      have := workLeft_step svc trieAdd i s s' hs'
      omega
  | succ n ih =>
    intro s hn hinv
    by_cases hd : allDone s = true
    · exact ⟨[], hd⟩
    · simp at hd
      obtain ⟨i, s', hs'⟩ := exists_step svc trieAdd s hinv.count hd
      have hlt := workLeft_step svc trieAdd i s s' hs'
      obtain ⟨ext, hext⟩ := ih s' (by omega) (mutexInv_step svc trieAdd t0 i s s' hinv hs')
      exact ⟨i :: ext, by simpa [run, hs'] using hext⟩

/-! ## Reachable states of a scan -/

theorem wsum_replicate (f : PC τ → Nat) (n : Nat) (pc : PC τ) :
    wsum f (List.replicate n pc) = n * f pc := by
  induction n with
  | zero => simp [wsum]
  | succ n ih =>
    simp [wsum, List.replicate_succ] at ih ⊢
    ring

theorem wsum_allDone (f : PC τ → Nat) (hf : f .done = 0) :
    ∀ (ws : List (PC τ)), ws.all PC.isDone = true → wsum f ws = 0 := by
  intro ws
  induction ws with
  | nil => intro _; simp [wsum]
  | cons w ws ih =>
    intro h
    simp at h
    have h1 : w = .done := by
      cases w <;> simp [PC.isDone] at h ⊢
    have h2 := ih (by simpa using h.2)
    simp [wsum, h1, hf] at h2 ⊢
    exact h2

theorem wsum_exited_allDone : ∀ (ws : List (PC τ)), ws.all PC.isDone = true →
    wsum exitedCount ws = ws.length := by
  intro ws
  induction ws with
  | nil => intro _; simp [wsum]
  | cons w ws ih =>
    intro h
    simp at h
    have h1 : w = .done := by
      cases w <;> simp [PC.isDone] at h ⊢
    have h2 := ih (by simpa using h.2)
    simp [wsum, h1, exitedCount] at h2 ⊢
    omega

theorem prologue_not_worker (svc : RedisServiceInterface) (options : ScanOptions) :
    ∀ e ∈ prologue svc options, e.isWorker = false := by
  intro e he
  unfold prologue totalCount getKeysCount at he
  split at he <;> (try split at he) <;> simp at he <;>
    first
      | (rcases he with h | h <;> subst h <;> rfl)
      | (rcases he with h | h | h <;> subst h <;> rfl)
      | (rcases he with h | h | h | h <;> subst h <;> rfl)

theorem keyBlock_worker (svc : RedisServiceInterface) (key : String) :
    ∀ e ∈ keyBlock svc key, e.isWorker = true ∧ e.isWorkerDone = false := by
  intro e he
  unfold keyBlock at he
  split at he <;> simp at he <;>
    first
      | (rcases he with h | h <;> subst h <;> exact ⟨rfl, rfl⟩)
      | (rcases he with h | h | h | h <;> subst h <;> exact ⟨rfl, rfl⟩)

theorem run_length (svc : RedisServiceInterface) (trieAdd : τ → String → List ParamValue → τ)
    (sched : List Nat) (s : State τ) :
    (run svc trieAdd sched s).workers.length = s.workers.length :=
  run_invariant svc trieAdd (fun s' => s'.workers.length = s.workers.length)
    (fun i s1 s2 h hs => (step_length svc trieAdd i s1 s2 hs).trans h) sched s rfl

theorem countInv_run (svc : RedisServiceInterface) (trieAdd : τ → String → List ParamValue → τ)
    (options : ScanOptions) (t : τ) (sched : List Nat) :
    CountInv svc (prologue svc options ++ (svc.ScanKeys options).flatMap (keyBlock svc))
      (run svc trieAdd sched (scanInit svc options t)) := by
  apply run_invariant svc trieAdd _ (countInv_step svc trieAdd _)
  intro e _
  simp [scanInit, wsum_replicate, pendCount, pending]

theorem shapeInv_run (svc : RedisServiceInterface) (trieAdd : τ → String → List ParamValue → τ)
    (options : ScanOptions) (t : τ) (sched : List Nat) :
    ShapeInv (prologue svc options) (run svc trieAdd sched (scanInit svc options t)) := by
  apply run_invariant svc trieAdd _ (shapeInv_step svc trieAdd _)
  exact ⟨[], by simp [scanInit], by simp⟩

theorem chanInv_run (svc : RedisServiceInterface) (trieAdd : τ → String → List ParamValue → τ)
    (options : ScanOptions) (t : τ) (sched : List Nat) :
    ChanInv (run svc trieAdd sched (scanInit svc options t)) := by
  apply run_invariant svc trieAdd _ (chanInv_step svc trieAdd)
  left
  simp [scanInit, wsum_replicate, exitedCount]

theorem applyAdds_not_worker (trieAdd : τ → String → List ParamValue → τ) (t : τ) :
    ∀ (evs : List Event), (∀ e ∈ evs, e.isWorker = false) → applyAdds trieAdd t evs = t := by
  intro evs
  induction evs with
  | nil => intro _; rfl
  | cons e rest ih =>
    intro h
    have h1 := h e (by simp)
    have h2 := ih (fun x hx => h x (by simp [hx]))
    cases e <;> simp [Event.isWorker] at h1 <;> simpa [applyAdds] using h2

theorem mutexInv_run (svc : RedisServiceInterface) (trieAdd : τ → String → List ParamValue → τ)
    (options : ScanOptions) (t : τ) (sched : List Nat) :
    MutexInv trieAdd t (run svc trieAdd sched (scanInit svc options t)) := by
  apply run_invariant svc trieAdd _ (mutexInv_step svc trieAdd t)
  refine ⟨?_, ?_, ?_⟩
  · simp [scanInit, wsum_replicate, csCount, PC.inCS]
  · intro pc hpc
    simp [scanInit] at hpc
    rw [hpc.2]
    simp [snapOK]
  · simp [scanInit, applyAdds_not_worker trieAdd t _ (prologue_not_worker svc options)]

theorem scan_some (svc : RedisServiceInterface) (trieAdd : τ → String → List ParamValue → τ)
    (options : ScanOptions) (t : τ) (sched : List Nat) (s : State τ)
    (h : Scan svc trieAdd options t sched = some s) :
    allDone (run svc trieAdd sched (scanInit svc options t)) = true ∧
      s.keys = (run svc trieAdd sched (scanInit svc options t)).keys ∧
      s.workers = (run svc trieAdd sched (scanInit svc options t)).workers ∧
      s.locked = (run svc trieAdd sched (scanInit svc options t)).locked ∧
      s.result = (run svc trieAdd sched (scanInit svc options t)).result ∧
      s.trace = (run svc trieAdd sched (scanInit svc options t)).trace ++ [.stop] := by
  unfold Scan at h
  simp only at h
  split at h
  · rename_i hd
    simp at h
    subst h
    exact ⟨hd, rfl, rfl, rfl, rfl, rfl⟩
  · simp at h

theorem run_no_workers (svc : RedisServiceInterface) (trieAdd : τ → String → List ParamValue → τ) :
    ∀ (sched : List Nat) (s : State τ), s.workers = [] → run svc trieAdd sched s = s := by
  intro sched
  induction sched with
  | nil => intro s _; rfl
  | cons i rest ih =>
    intro s hs
    have : step svc trieAdd i s = none := by simp [step, hs]
    simp [run, this, ih s hs]

theorem workers_pos (options : ScanOptions) (t : τ) (svc : RedisServiceInterface)
    (hw : 1 ≤ options.Workers) : 1 ≤ (scanInit svc options t).workers.length := by
  simp [scanInit]
  omega

theorem final_keys (svc : RedisServiceInterface) (trieAdd : τ → String → List ParamValue → τ)
    (options : ScanOptions) (t : τ) (sched : List Nat) (hw : 1 ≤ options.Workers)
    (hd : allDone (run svc trieAdd sched (scanInit svc options t)) = true) :
    (run svc trieAdd sched (scanInit svc options t)).keys = [] := by
  have hlen := run_length svc trieAdd sched (scanInit svc options t)
  have hpos := workers_pos options t svc hw
  have hex := wsum_exited_allDone _ hd
  rcases chanInv_run svc trieAdd options t sched with h | h
  · omega
  · exact h

theorem final_count (svc : RedisServiceInterface) (trieAdd : τ → String → List ParamValue → τ)
    (options : ScanOptions) (t : τ) (sched : List Nat) (hw : 1 ≤ options.Workers)
    (hd : allDone (run svc trieAdd sched (scanInit svc options t)) = true)
    (e : Event) (he : e.isWorkerDone = false) :
    List.count e (run svc trieAdd sched (scanInit svc options t)).trace =
      List.count e (prologue svc options ++ (svc.ScanKeys options).flatMap (keyBlock svc)) := by
  have hc := countInv_run svc trieAdd options t sched e
    (by intro n hn; subst hn; simp [Event.isWorkerDone] at he)
  have hk := final_keys svc trieAdd options t sched hw hd
  have hz := wsum_allDone (pendCount svc e) (by simp [pendCount, pending]) _ hd
  rw [hk, hz] at hc
  simpa using hc

/-- The calls of a completed scan with at least one worker, the worker-done
entries left out, are the calls before the workers, the calls owed for every
key of the stream, and `Stop`, up to the order among the workers. -/
theorem scan_trace_perm (svc : RedisServiceInterface)
    (trieAdd : τ → String → List ParamValue → τ)
    (options : ScanOptions) (t : τ) (sched : List Nat) (s : State τ)
    (hw : 1 ≤ options.Workers) (h : Scan svc trieAdd options t sched = some s) :
    (s.trace.filter (fun e => !e.isWorkerDone)).Perm
      (prologue svc options ++ (svc.ScanKeys options).flatMap (keyBlock svc) ++ [.stop]) := by
  obtain ⟨hd, _, _, _, _, htr⟩ := scan_some svc trieAdd options t sched s h
  rw [List.perm_iff_count]
  intro e
  cases he : e.isWorkerDone with
  | true =>
    have h1 : List.count e (s.trace.filter (fun e => !e.isWorkerDone)) = 0 := by
      apply List.count_eq_zero_of_not_mem
      simp [List.mem_filter, he]
    have h2 : List.count e (prologue svc options ++
        (svc.ScanKeys options).flatMap (keyBlock svc) ++ [.stop]) = 0 := by
      apply List.count_eq_zero_of_not_mem
      intro hm
      simp only [List.mem_append, List.mem_flatMap, List.mem_singleton] at hm
      rcases hm with (hm | ⟨k, _, hm⟩) | hm
      · have := prologue_not_worker svc options e hm
        cases e <;> simp [Event.isWorker, Event.isWorkerDone] at this he
      · have := (keyBlock_worker svc k e hm).2
        rw [he] at this
        exact absurd this (by simp)
      · subst hm
        simp [Event.isWorkerDone] at he
    rw [h1, h2]
  | false =>
    have hfc := final_count svc trieAdd options t sched hw hd e he
    rw [List.count_filter (by simp [he]), htr]
    simp only [List.count_append] at hfc ⊢
    omega

/-! ## What a completed scan has called -/

theorem filterMap_prologue {β : Type} (svc : RedisServiceInterface) (options : ScanOptions)
    (f : Event → Option β) (hf : ∀ e, e.isWorker = false → f e = none) :
    (prologue svc options).filterMap f = [] := by
  rw [List.filterMap_eq_nil_iff]
  intro e he
  exact hf e (prologue_not_worker svc options e he)

theorem scan_filterMap_perm {β : Type} (svc : RedisServiceInterface)
    (trieAdd : τ → String → List ParamValue → τ)
    (options : ScanOptions) (t : τ) (sched : List Nat) (s : State τ)
    (f : Event → Option β)
    (hf : ∀ e, e.isWorker = false ∨ e.isWorkerDone = true → f e = none)
    (hw : 1 ≤ options.Workers) (h : Scan svc trieAdd options t sched = some s) :
    (s.trace.filterMap f).Perm (((svc.ScanKeys options).flatMap (keyBlock svc)).filterMap f) := by
  have hp := (scan_trace_perm svc trieAdd options t sched s hw h).filterMap f
  rw [List.filterMap_filter] at hp
  have h1 : List.filterMap (fun x => if (!x.isWorkerDone) = true then f x else none) s.trace
      = List.filterMap f s.trace := by
    apply List.filterMap_congr
    intro x _
    cases hx : x.isWorkerDone with
    | true => simp [hf x (Or.inr hx)]
    | false => simp
  rw [h1] at hp
  simp only [List.filterMap_append] at hp
  rw [filterMap_prologue svc options f (fun e he => hf e (Or.inl he))] at hp
  have h2 : List.filterMap f [Event.stop] = [] := by
    rw [List.filterMap_eq_nil_iff]
    intro e he
    simp at he
    subst he
    exact hf _ (Or.inl rfl)
  rw [h2] at hp
  simpa using hp

theorem scan_filter_perm (svc : RedisServiceInterface)
    (trieAdd : τ → String → List ParamValue → τ)
    (options : ScanOptions) (t : τ) (sched : List Nat) (s : State τ)
    (p : Event → Bool)
    (hp : ∀ e, e.isWorker = false ∨ e.isWorkerDone = true → p e = false)
    (hw : 1 ≤ options.Workers) (h : Scan svc trieAdd options t sched = some s) :
    (s.trace.filter p).Perm (((svc.ScanKeys options).flatMap (keyBlock svc)).filter p) := by
  have := scan_filterMap_perm svc trieAdd options t sched s (Option.guard (fun e => p e = true))
    (by intro e he; simp [Option.guard, hp e he]) hw h
  simpa [List.filterMap_eq_filter] using this

theorem flatMap_filter_isAdd (svc : RedisServiceInterface) : ∀ (keys : List String),
    (keys.flatMap (keyBlock svc)).filter Event.isAdd = keys.filterMap (addCall svc) := by
  intro keys
  induction keys with
  | nil => rfl
  | cons k ks ih =>
    simp only [List.flatMap_cons, List.filter_append, ih, List.filterMap_cons]
    unfold keyBlock addCall
    cases svc.GetMemoryUsage k <;> simp [Event.isAdd, addParams, List.filter]

theorem flatMap_filter_isLogErrorKey (svc : RedisServiceInterface) : ∀ (keys : List String),
    (keys.flatMap (keyBlock svc)).filter Event.isLogErrorKey
      = keys.filterMap (errorEntry svc) := by
  intro keys
  induction keys with
  | nil => rfl
  | cons k ks ih =>
    simp only [List.flatMap_cons, List.filter_append, ih, List.filterMap_cons]
    unfold keyBlock errorEntry
    cases svc.GetMemoryUsage k <;> simp [Event.isLogErrorKey, List.filter]

theorem flatMap_filterMap_queriedKey (svc : RedisServiceInterface) : ∀ (keys : List String),
    (keys.flatMap (keyBlock svc)).filterMap Event.queriedKey = keys := by
  intro keys
  induction keys with
  | nil => rfl
  | cons k ks ih =>
    simp only [List.flatMap_cons, List.filterMap_append, ih]
    unfold keyBlock
    cases svc.GetMemoryUsage k <;> simp [Event.queriedKey, List.filterMap]

theorem flatMap_count_increment (svc : RedisServiceInterface) : ∀ (keys : List String),
    List.count Event.increment (keys.flatMap (keyBlock svc))
      = (keys.filterMap (addCall svc)).length := by
  intro keys
  induction keys with
  | nil => rfl
  | cons k ks ih =>
    simp only [List.flatMap_cons, List.count_append, ih, List.filterMap_cons]
    unfold keyBlock addCall
    cases svc.GetMemoryUsage k with
    | error err => simp [List.count_cons]
    | ok res => simp [List.count_cons]; omega

theorem isAdd_not_worker (e : Event) (he : e.isWorker = false ∨ e.isWorkerDone = true) :
    e.isAdd = false := by
  cases e <;> simp [Event.isWorker, Event.isWorkerDone, Event.isAdd] at he ⊢

theorem isLogErrorKey_not_worker (e : Event)
    (he : e.isWorker = false ∨ e.isWorkerDone = true) : e.isLogErrorKey = false := by
  cases e <;> simp [Event.isWorker, Event.isWorkerDone, Event.isLogErrorKey] at he ⊢

theorem queriedKey_not_worker (e : Event)
    (he : e.isWorker = false ∨ e.isWorkerDone = true) : e.queriedKey = none := by
  cases e <;> simp [Event.isWorker, Event.isWorkerDone, Event.queriedKey] at he ⊢

theorem scan_adds_perm (svc : RedisServiceInterface)
    (trieAdd : τ → String → List ParamValue → τ)
    (options : ScanOptions) (t : τ) (sched : List Nat) (s : State τ)
    (hw : 1 ≤ options.Workers) (h : Scan svc trieAdd options t sched = some s) :
    (s.trace.filter Event.isAdd).Perm ((svc.ScanKeys options).filterMap (addCall svc)) := by
  have := scan_filter_perm svc trieAdd options t sched s Event.isAdd isAdd_not_worker hw h
  rwa [flatMap_filter_isAdd] at this

theorem scan_errors_perm (svc : RedisServiceInterface)
    (trieAdd : τ → String → List ParamValue → τ)
    (options : ScanOptions) (t : τ) (sched : List Nat) (s : State τ)
    (hw : 1 ≤ options.Workers) (h : Scan svc trieAdd options t sched = some s) :
    (s.trace.filter Event.isLogErrorKey).Perm
      ((svc.ScanKeys options).filterMap (errorEntry svc)) := by
  have := scan_filter_perm svc trieAdd options t sched s Event.isLogErrorKey
    isLogErrorKey_not_worker hw h
  rwa [flatMap_filter_isLogErrorKey] at this

theorem scan_queried_perm (svc : RedisServiceInterface)
    (trieAdd : τ → String → List ParamValue → τ)
    (options : ScanOptions) (t : τ) (sched : List Nat) (s : State τ)
    (hw : 1 ≤ options.Workers) (h : Scan svc trieAdd options t sched = some s) :
    (s.trace.filterMap Event.queriedKey).Perm (svc.ScanKeys options) := by
  have := scan_filterMap_perm svc trieAdd options t sched s Event.queriedKey
    queriedKey_not_worker hw h
  rwa [flatMap_filterMap_queriedKey] at this

theorem scan_no_workers (svc : RedisServiceInterface)
    (trieAdd : τ → String → List ParamValue → τ)
    (options : ScanOptions) (t : τ) (sched : List Nat) (hw : options.Workers ≤ 0) :
    Scan svc trieAdd options t sched = some
      { keys := svc.ScanKeys options, workers := [], locked := false, result := t,
        trace := prologue svc options ++ [.stop] } := by
  have h0 : (scanInit svc options t).workers = [] := by
    simp [scanInit]
    omega
  unfold Scan
  rw [run_no_workers svc trieAdd sched _ h0]
  simp [allDone, h0]
  simp [scanInit]

/-! ## The sequential scan (one worker) -/

theorem seqInv_step (svc : RedisServiceInterface) (trieAdd : τ → String → List ParamValue → τ)
    (target : List Event) (i : Nat) (s s' : State τ)
    (h : SeqInv svc target s) (hs : step svc trieAdd i s = some s') :
    SeqInv svc target s' := by
  obtain ⟨ks, ws, l, r, tr⟩ := s
  obtain ⟨pc, pc', ks', l', r', evs, hpc, ht, rfl⟩ := step_char svc trieAdd i ks ws l r tr s' hs
  obtain ⟨pc0, hws, hex, heq⟩ := h
  simp only at hws hex heq
  subst hws
  have hi : i = 0 := by
    cases i with
    | zero => rfl
    | succ j => simp at hpc
  subst hi
  simp at hpc
  subst hpc
  refine ⟨pc', by simp, ?_, ?_⟩
  · cases ht <;> simp [exitedCount] at hex ⊢
    exact hex
  · subst heq
    cases ht <;> simp [pending, keyBlock, owedDone, exitedCount, *] at hex ⊢
    subst hex
    rfl

theorem seqInv_run (svc : RedisServiceInterface) (trieAdd : τ → String → List ParamValue → τ)
    (options : ScanOptions) (t : τ) (sched : List Nat) (hw : options.Workers = 1) :
    SeqInv svc (prologue svc options ++ (svc.ScanKeys options).flatMap (keyBlock svc)
      ++ [.logWorkerDone 1]) (run svc trieAdd sched (scanInit svc options t)) := by
  apply run_invariant svc trieAdd _ (seqInv_step svc trieAdd _)
  refine ⟨.recv, by simp [scanInit, hw], by simp [exitedCount], ?_⟩
  simp [scanInit, pending, owedDone]

/-- With one worker the trace of a completed scan is determined: the calls
before the worker, then for every key of the stream, in stream order, the calls
owed for it, then the worker-done entry and `Stop`. -/
theorem scan_one_worker (svc : RedisServiceInterface)
    (trieAdd : τ → String → List ParamValue → τ)
    (options : ScanOptions) (t : τ) (sched : List Nat) (s : State τ)
    (hw : options.Workers = 1) (h : Scan svc trieAdd options t sched = some s) :
    s.trace = prologue svc options ++ (svc.ScanKeys options).flatMap (keyBlock svc)
      ++ [.logWorkerDone 1, .stop] := by
  obtain ⟨hd, _, _, _, _, htr⟩ := scan_some svc trieAdd options t sched s h
  obtain ⟨pc, hws, hex, heq⟩ := seqInv_run svc trieAdd options t sched hw
  have hpc : pc = .done := by
    simp [allDone, hws] at hd
    cases pc <;> simp [PC.isDone] at hd ⊢
  subst hpc
  simp [exitedCount] at hex
  simp [hex, pending, owedDone] at heq
  rw [htr, heq]
  simp

theorem incrInv_step (svc : RedisServiceInterface) (trieAdd : τ → String → List ParamValue → τ)
    (i : Nat) (s s' : State τ)
    (h : IncrInv s) (hs : step svc trieAdd i s = some s') : IncrInv s' := by
  obtain ⟨ks, ws, l, r, tr⟩ := s
  obtain ⟨pc, pc', ks', l', r', evs, hpc, ht, rfl⟩ := step_char svc trieAdd i ks ws l r tr s' hs
  have hset := wsum_set owedIncrement ws i pc pc' hpc
  unfold IncrInv at h ⊢
  simp only at h ⊢
  cases ht <;>
    simp [owedIncrement, List.count_cons, List.filter_append, List.filter, Event.isAdd]
      at hset h ⊢ <;> omega

theorem incrInv_run (svc : RedisServiceInterface) (trieAdd : τ → String → List ParamValue → τ)
    (options : ScanOptions) (t : τ) (sched : List Nat) :
    IncrInv (run svc trieAdd sched (scanInit svc options t)) := by
  apply run_invariant svc trieAdd _ (incrInv_step svc trieAdd)
  unfold IncrInv
  have h1 : List.count Event.increment (prologue svc options) = 0 := by
    apply List.count_eq_zero_of_not_mem
    intro hm
    have := prologue_not_worker svc options _ hm
    simp [Event.isWorker] at this
  have h2 : (prologue svc options).filter Event.isAdd = [] := by
    rw [List.filter_eq_nil_iff]
    intro e he hadd
    have := prologue_not_worker svc options e he
    rw [isAdd_not_worker e (Or.inl this)] at hadd
    exact absurd hadd (by simp)
  simp [scanInit, wsum_replicate, owedIncrement, h1, h2]

/-- From every state a scan can reach, some continuation of the schedule lets
every worker return: `Scan` completes. -/
theorem scan_completes (svc : RedisServiceInterface)
    (trieAdd : τ → String → List ParamValue → τ)
    (options : ScanOptions) (t : τ) (sched : List Nat) :
    ∃ ext s, Scan svc trieAdd options t (sched ++ ext) = some s := by
  obtain ⟨ext, hext⟩ := exists_completion svc trieAdd t _
    (run svc trieAdd sched (scanInit svc options t)) (Nat.le_refl _)
    (mutexInv_run svc trieAdd options t sched)
  refine ⟨ext, ?_⟩
  unfold Scan
  simp only [run_append, hext]
  exact ⟨_, rfl⟩

theorem scan_shape (svc : RedisServiceInterface)
    (trieAdd : τ → String → List ParamValue → τ)
    (options : ScanOptions) (t : τ) (sched : List Nat) (s : State τ)
    (h : Scan svc trieAdd options t sched = some s) :
    ∃ mid, s.trace = prologue svc options ++ mid ++ [.stop] ∧ ∀ e ∈ mid, e.isWorker = true := by
  obtain ⟨_, _, _, _, _, htr⟩ := scan_some svc trieAdd options t sched s h
  obtain ⟨mid, hmid, hall⟩ := shapeInv_run svc trieAdd options t sched
  exact ⟨mid, by rw [htr, hmid], hall⟩

theorem length_split (svc : RedisServiceInterface) : ∀ (keys : List String),
    (keys.filterMap (addCall svc)).length + (keys.filter (fails svc)).length = keys.length ∧
    (keys.filterMap (errorEntry svc)).length = (keys.filter (fails svc)).length ∧
    (keys.filterMap (cost svc)).length = (keys.filterMap (addCall svc)).length := by
  intro keys
  induction keys with
  | nil => simp
  | cons k ks ih =>
    obtain ⟨h1, h2, h3⟩ := ih
    simp only [List.filterMap_cons, List.filter_cons]
    cases hk : svc.GetMemoryUsage k <;> simp [addCall, errorEntry, fails, cost, hk] <;> omega

theorem scan_calls_no_workers (svc : RedisServiceInterface)
    (trieAdd : τ → String → List ParamValue → τ)
    (options : ScanOptions) (t : τ) (sched : List Nat) (s : State τ)
    (hw : options.Workers ≤ 0) (h : Scan svc trieAdd options t sched = some s) :
    s.trace.filter Event.isAdd = [] ∧ s.trace.filter Event.isLogErrorKey = [] ∧
      s.trace.filterMap Event.queriedKey = [] ∧ List.count Event.increment s.trace = 0 := by
  rw [scan_no_workers svc trieAdd options t sched hw] at h
  simp at h
  subst h
  simp only
  have hp := prologue_not_worker svc options
  refine ⟨?_, ?_, ?_, ?_⟩
  · rw [List.filter_eq_nil_iff]
    intro e he
    simp only [List.mem_append, List.mem_singleton] at he
    rcases he with he | he
    · simp [isAdd_not_worker e (Or.inl (hp e he))]
    · subst he; simp [Event.isAdd]
  · rw [List.filter_eq_nil_iff]
    intro e he
    simp only [List.mem_append, List.mem_singleton] at he
    rcases he with he | he
    · simp [isLogErrorKey_not_worker e (Or.inl (hp e he))]
    · subst he; simp [Event.isLogErrorKey]
  · rw [List.filterMap_eq_nil_iff]
    intro e he
    simp only [List.mem_append, List.mem_singleton] at he
    rcases he with he | he
    · exact queriedKey_not_worker e (Or.inl (hp e he))
    · subst he; rfl
  · apply List.count_eq_zero_of_not_mem
    intro he
    simp only [List.mem_append, List.mem_singleton] at he
    rcases he with he | he
    · have := hp _ he
      simp [Event.isWorker] at this
    · exact absurd he (by simp)

/-! ## Two scans that differ only before the workers start -/

theorem step_sameUpTo (svc1 svc2 : RedisServiceInterface)
    (trieAdd : τ → String → List ParamValue → τ)
    (hm : svc1.GetMemoryUsage = svc2.GetMemoryUsage) (p1 p2 : List Event)
    (i : Nat) (s1 s2 : State τ) (h : SameUpTo p1 p2 s1 s2) :
    SameUpTo p1 p2 ((step svc1 trieAdd i s1).getD s1) ((step svc2 trieAdd i s2).getD s2) := by
  obtain ⟨ks, ws, l, r, tr1⟩ := s1
  obtain ⟨ks2, ws2, l2, r2, tr2⟩ := s2
  obtain ⟨h1, h2, h3, h4, rest, h5, h6⟩ := h
  simp only at h1 h2 h3 h4 h5 h6
  subst h1 h2 h3 h4 h5 h6
  unfold step
  simp only [hm]
  cases hi : ws[i]? with
  | none => exact ⟨rfl, rfl, rfl, rfl, rest, rfl, rfl⟩
  | some pc =>
    cases pc with
    | recv =>
      cases ks with
      | nil => exact ⟨rfl, rfl, rfl, rfl, rest, rfl, rfl⟩
      | cons k ks => exact ⟨rfl, rfl, rfl, rfl, rest, rfl, rfl⟩
    | query k =>
      simp only
      cases svc2.GetMemoryUsage k with
      | error err => exact ⟨rfl, rfl, rfl, rfl, _, List.append_assoc _ _ _, List.append_assoc _ _ _⟩
      | ok res => exact ⟨rfl, rfl, rfl, rfl, _, List.append_assoc _ _ _, List.append_assoc _ _ _⟩
    | lock k res =>
      cases l with
      | true => exact ⟨rfl, rfl, rfl, rfl, rest, rfl, rfl⟩
      | false => exact ⟨rfl, rfl, rfl, rfl, rest, rfl, rfl⟩
    | add k res => exact ⟨rfl, rfl, rfl, rfl, rest, rfl, rfl⟩
    | unlock k res => exact ⟨rfl, rfl, rfl, rfl, rest, rfl, rfl⟩
    | done => exact ⟨rfl, rfl, rfl, rfl, rest, rfl, rfl⟩
    | logErr k err => exact ⟨rfl, rfl, rfl, rfl, _, List.append_assoc _ _ _, List.append_assoc _ _ _⟩
    | inAdd k res seen => exact ⟨rfl, rfl, rfl, rfl, _, List.append_assoc _ _ _, List.append_assoc _ _ _⟩
    | logDebug k res => exact ⟨rfl, rfl, rfl, rfl, _, List.append_assoc _ _ _, List.append_assoc _ _ _⟩
    | incr => exact ⟨rfl, rfl, rfl, rfl, _, List.append_assoc _ _ _, List.append_assoc _ _ _⟩
    | logDone => exact ⟨rfl, rfl, rfl, rfl, _, List.append_assoc _ _ _, List.append_assoc _ _ _⟩

theorem run_sameUpTo (svc1 svc2 : RedisServiceInterface)
    (trieAdd : τ → String → List ParamValue → τ)
    (hm : svc1.GetMemoryUsage = svc2.GetMemoryUsage) (p1 p2 : List Event) :
    ∀ (sched : List Nat) (s1 s2 : State τ), SameUpTo p1 p2 s1 s2 →
      SameUpTo p1 p2 (run svc1 trieAdd sched s1) (run svc2 trieAdd sched s2) := by
  intro sched
  induction sched with
  | nil => intro s1 s2 h; exact h
  | cons i rest ih =>
    intro s1 s2 h
    exact ih _ _ (step_sameUpTo svc1 svc2 trieAdd hm p1 p2 i s1 s2 h)

/-- Two scans whose key sources answer `GetMemoryUsage` alike and deliver the
same key stream, run with the same number of workers under the same schedule:
when the first returns so does the second, with the same tree, and their traces
differ only in the calls made before the workers start. -/
theorem scan_sameUpTo (svc1 svc2 : RedisServiceInterface)
    (trieAdd : τ → String → List ParamValue → τ)
    (options1 options2 : ScanOptions) (t : τ) (sched : List Nat) (s1 : State τ)
    (hm : svc1.GetMemoryUsage = svc2.GetMemoryUsage)
    (hk : svc1.ScanKeys options1 = svc2.ScanKeys options2)
    (hw : options1.Workers = options2.Workers)
    (h : Scan svc1 trieAdd options1 t sched = some s1) :
    ∃ s2 rest, Scan svc2 trieAdd options2 t sched = some s2 ∧
      s1.trace = prologue svc1 options1 ++ rest ∧ s2.trace = prologue svc2 options2 ++ rest ∧
      s2.result = s1.result ∧ s2.keys = s1.keys ∧ s2.workers = s1.workers ∧
      s2.locked = s1.locked ∧ ∀ e ∈ rest, e.isWorker = true ∨ e = Event.stop := by
  obtain ⟨hd, hks, hws, hl, hr, htr⟩ := scan_some svc1 trieAdd options1 t sched s1 h
  have hinit : SameUpTo (prologue svc1 options1) (prologue svc2 options2)
      (scanInit svc1 options1 t) (scanInit svc2 options2 t) :=
    ⟨by simp [scanInit, hk], by simp [scanInit, hw], rfl, rfl, [], by simp [scanInit],
      by simp [scanInit]⟩
  obtain ⟨e1, e2, e3, e4, rest, e5, e6⟩ :=
    run_sameUpTo svc1 svc2 trieAdd hm _ _ sched _ _ hinit
  obtain ⟨mid, hmid, hall⟩ := shapeInv_run svc1 trieAdd options1 t sched
  have hrm : rest = mid := List.append_cancel_left (e5.symm.trans hmid)
  subst hrm
  have hd2 : allDone (run svc2 trieAdd sched (scanInit svc2 options2 t)) = true := by
    simpa [allDone, ← e2] using hd
  refine ⟨{ run svc2 trieAdd sched (scanInit svc2 options2 t) with
      trace := (run svc2 trieAdd sched (scanInit svc2 options2 t)).trace ++ [.stop] },
    rest ++ [.stop], ?_, ?_, ?_, ?_, ?_, ?_, ?_, ?_⟩
  · simp [Scan, hd2]
  · rw [htr, e5, List.append_assoc]
  · simp only
    rw [e6, List.append_assoc]
  · simp only
    rw [hr, e4]
  · simp only
    rw [hks, e1]
  · simp only
    rw [hws, e2]
  · simp only
    rw [hl, e3]
  · intro e he
    rcases List.mem_append.1 he with h1 | h1
    · exact Or.inl (hall e h1)
    · exact Or.inr (by simpa using h1)

/-! ## The calls before the workers start -/

theorem prologue_count_ok (svc : RedisServiceInterface) (options : ScanOptions) (n : Int)
    (hp : options.Pattern = "*" ∨ options.Pattern = "") (hc : svc.GetKeysCount = .ok n) :
    prologue svc options = [.getKeysCount, .start n, .scanKeys options] := by
  simp [prologue, totalCount, getKeysCount, hp, hc]

theorem prologue_count_error (svc : RedisServiceInterface) (options : ScanOptions)
    (err : String)
    (hp : options.Pattern = "*" ∨ options.Pattern = "") (hc : svc.GetKeysCount = .error err) :
    prologue svc options
      = [.getKeysCount, .logErrorKeysCount err, .start 0, .scanKeys options] := by
  simp [prologue, totalCount, getKeysCount, hp, hc]

theorem prologue_restricted (svc : RedisServiceInterface) (options : ScanOptions)
    (h1 : options.Pattern ≠ "*") (h2 : options.Pattern ≠ "") :
    prologue svc options = [.start 0, .scanKeys options] := by
  simp [prologue, totalCount, h1, h2]

theorem totalCount_events (svc : RedisServiceInterface) (options : ScanOptions) :
    ∀ e ∈ (totalCount svc options).2, e = .getKeysCount ∨ ∃ err, e = .logErrorKeysCount err := by
  intro e he
  unfold totalCount getKeysCount at he
  split at he
  · split at he
    · simp at he
      rcases he with h | h
      · exact Or.inl h
      · exact Or.inr ⟨_, h⟩
    · simp at he
      exact Or.inl he
  · simp at he

theorem not_getKeysCount_of_worker (rest : List Event)
    (h : ∀ e ∈ rest, e.isWorker = true ∨ e = Event.stop) : Event.getKeysCount ∉ rest := by
  intro hm
  rcases h _ hm with h1 | h1
  · simp [Event.isWorker] at h1
  · exact absurd h1 (by simp)

theorem scan_shape_stop (svc : RedisServiceInterface)
    (trieAdd : τ → String → List ParamValue → τ)
    (options : ScanOptions) (t : τ) (sched : List Nat) (s : State τ)
    (h : Scan svc trieAdd options t sched = some s) :
    ∃ rest, s.trace = prologue svc options ++ rest ∧
      ∀ e ∈ rest, e.isWorker = true ∨ e = Event.stop := by
  obtain ⟨mid, hmid, hall⟩ := scan_shape svc trieAdd options t sched s h
  refine ⟨mid ++ [.stop], by rw [hmid, List.append_assoc], ?_⟩
  intro e he
  rcases List.mem_append.1 he with h1 | h1
  · exact Or.inl (hall e h1)
  · exact Or.inr (by simpa using h1)

theorem filter_isProgress_worker : ∀ (l : List Event), (∀ e ∈ l, e.isWorker = true) →
    l.filter Event.isProgress = List.replicate (List.count Event.increment l) Event.increment := by
  intro l
  induction l with
  | nil => intro _; rfl
  | cons e rest ih =>
    intro h
    have h1 := h e (by simp)
    have h2 := ih (fun x hx => h x (by simp [hx]))
    cases e <;>
      simp [Event.isWorker, Event.isProgress, List.filter, List.count_cons,
        List.replicate_succ] at h1 h2 ⊢ <;>
      simp [h2, Event.isProgress]

/-! ## Mutual exclusion: counting forms -/

theorem wsum_csCount : ∀ (ws : List (PC τ)), wsum csCount ws = List.countP PC.inCS ws := by
  intro ws
  induction ws with
  | nil => rfl
  | cons w ws ih =>
    simp only [wsum, List.map_cons, List.sum_cons, List.countP_cons] at ih ⊢
    rw [ih]
    unfold csCount
    omega

theorem wsum_inAddCount : ∀ (ws : List (PC τ)),
    wsum inAddCount ws = List.countP PC.isInAdd ws := by
  intro ws
  induction ws with
  | nil => rfl
  | cons w ws ih =>
    simp only [wsum, List.map_cons, List.sum_cons, List.countP_cons] at ih ⊢
    rw [ih]
    cases w <;> simp [inAddCount, PC.isInAdd]
    omega

theorem applyAdds_filter (trieAdd : τ → String → List ParamValue → τ) :
    ∀ (trace : List Event) (t : τ),
      applyAdds trieAdd t (trace.filter Event.isAdd) = applyAdds trieAdd t trace := by
  intro trace
  induction trace with
  | nil => intro t; rfl
  | cons e rest ih =>
    intro t
    cases e <;> simp [List.filter, Event.isAdd, applyAdds] <;>
      simpa [applyAdds] using ih _

/-! ## The root of the aggregation tree -/

theorem foldl_addValue (p : Param) : ∀ (paramValues : List ParamValue) (m : Param → Int),
    (paramValues.foldl addValue m) p
      = m p + ((paramValues.filter (fun pv => pv.Param = p)).map (·.Value)).sum := by
  intro paramValues
  induction paramValues with
  | nil => intro m; simp
  | cons pv rest ih =>
    intro m
    simp only [List.foldl_cons, ih, List.filter_cons]
    by_cases hp : pv.Param = p
    · simp [addValue, hp]
      omega
    · have hp' : ¬ p = pv.Param := fun h => hp h.symm
      simp [addValue, hp, hp']

theorem insert_metrics (maxChildren : Int) (paramValues : List ParamValue)
    (segments : List String) (n : Node) :
    (Node.insert maxChildren paramValues segments n).metrics
      = paramValues.foldl addValue n.metrics := by
  cases segments with
  | nil => simp [Node.insert, Node.addValues, Node.metrics]
  | cons seg rest =>
    simp only [Node.insert]
    split
    · simp [Node.addValues, Node.metrics]
    · split <;> simp [Node.addValues, Node.metrics]

theorem add_root_metrics (t : Trie) (key : String) (paramValues : List ParamValue) (p : Param) :
    (t.Add key paramValues).Root.metrics p
      = t.Root.metrics p + addedValue p (.add key paramValues) := by
  simp [Trie.Add, Trie.Root, insert_metrics, foldl_addValue, addedValue]

theorem applyAdds_root_metrics (p : Param) : ∀ (trace : List Event) (t : Trie),
    (applyAdds Trie.Add t trace).Root.metrics p
      = t.Root.metrics p + (trace.map (addedValue p)).sum := by
  intro trace
  induction trace with
  | nil => intro t; simp [applyAdds]
  | cons e rest ih =>
    intro t
    have h := ih (applyAdds Trie.Add t [e])
    have happ : applyAdds Trie.Add t (e :: rest)
        = applyAdds Trie.Add (applyAdds Trie.Add t [e]) rest := by
      simp [applyAdds]
    rw [happ, h]
    cases e <;> simp [applyAdds, addedValue, add_root_metrics]
    omega

theorem addCall_values (svc : RedisServiceInterface) : ∀ (keys : List String),
    ((keys.filterMap (addCall svc)).map (addedValue Param.BytesSize)).sum
        = (keys.filterMap (cost svc)).sum ∧
      ((keys.filterMap (addCall svc)).map (addedValue Param.KeysCount)).sum
        = ((keys.filterMap (cost svc)).length : Int) := by
  intro keys
  induction keys with
  | nil => simp
  | cons k ks ih =>
    obtain ⟨h1, h2⟩ := ih
    simp only [List.filterMap_cons]
    cases hk : svc.GetMemoryUsage k <;>
      simp [addCall, cost, hk, addedValue, h1, h2]
    omega

/-- The root totals of the tree after a completed scan with at least one worker. -/
theorem scan_root_metrics (svc : RedisServiceInterface) (options : ScanOptions)
    (t : Trie) (sched : List Nat) (s : State Trie) (p : Param)
    (hw : 1 ≤ options.Workers) (h : Scan svc Trie.Add options t sched = some s) :
    s.result.Root.metrics p = t.Root.metrics p
      + (((svc.ScanKeys options).filterMap (addCall svc)).map (addedValue p)).sum := by
  obtain ⟨hd, _, _, _, hr, htr⟩ := scan_some svc Trie.Add options t sched s h
  have hfold := (mutexInv_run svc Trie.Add options t sched).fold
  have hperm := scan_adds_perm svc Trie.Add options t sched s hw h
  rw [hr, hfold, ← applyAdds_filter, applyAdds_root_metrics]
  have hf : s.trace.filter Event.isAdd
      = (run svc Trie.Add sched (scanInit svc options t)).trace.filter Event.isAdd := by
    rw [htr]
    simp [List.filter_append, List.filter, Event.isAdd]
  rw [← hf, (hperm.map (addedValue p)).sum_eq]

/-! ## The claims -/

/-- C1: in every completed run of `Scan`, for every key stream and cost function,
the `Add` calls on the tree are, one for one, the keys whose `GetMemoryUsage`
call succeeded, each with exactly the parameter values `BytesSize` = the returned
cost and `KeysCount` = 1 in that order (`addCall`), and there is no other `Add`;
with at least one worker these are the successfully costed keys of the stream,
and with one worker the `Add` calls occur in stream order. -/
theorem scan_adds_each_costed_key_once (svc : RedisServiceInterface)
    (trieAdd : τ → String → List ParamValue → τ)
    (options : ScanOptions) (t : τ) (sched : List Nat) (s : State τ)
    (h : Scan svc trieAdd options t sched = some s) :
    (s.trace.filter Event.isAdd).Perm
        ((s.trace.filterMap Event.queriedKey).filterMap (addCall svc)) ∧
      (1 ≤ options.Workers →
        (s.trace.filter Event.isAdd).Perm ((svc.ScanKeys options).filterMap (addCall svc))) ∧
      (options.Workers = 1 →
        s.trace.filter Event.isAdd = (svc.ScanKeys options).filterMap (addCall svc)) := by
  refine ⟨?_, ?_, ?_⟩
  · by_cases hw : 1 ≤ options.Workers
    · have h1 := scan_adds_perm svc trieAdd options t sched s hw h
      have h2 := (scan_queried_perm svc trieAdd options t sched s hw h).filterMap (addCall svc)
      exact h1.trans h2.symm
    · obtain ⟨h1, _, h3, _⟩ :=
        scan_calls_no_workers svc trieAdd options t sched s (by omega) h
      rw [h1, h3]
      exact List.Perm.refl _
  · intro hw
    exact scan_adds_perm svc trieAdd options t sched s hw h
  · intro hw
    rw [scan_one_worker svc trieAdd options t sched s hw h]
    simp only [List.filter_append, flatMap_filter_isAdd]
    have hp : (prologue svc options).filter Event.isAdd = [] := by
      rw [List.filter_eq_nil_iff]
      intro e he
      simp [isAdd_not_worker e (Or.inl (prologue_not_worker svc options e he))]
    rw [hp]
    simp [List.filter, Event.isAdd]

set_option maxRecDepth 100000 in
/-- C1, on an example: three keys, the cost query fails for `bad`. With two
workers the `Add` calls are those of `a:1` and `a:2` in some order; with one
worker they are made in stream order. -/
theorem scan_adds_each_costed_key_once_witness :
    (∃ s, Scan exService Trie.Add exOptions exTrie exSchedule = some s ∧
      (s.trace.filter Event.isAdd).Perm
        ((s.trace.filterMap Event.queriedKey).filterMap (addCall exService)) ∧
      (s.trace.filter Event.isAdd).Perm
        [.add "a:1" [{ Param := Param.BytesSize, Value := 10 },
                     { Param := Param.KeysCount, Value := 1 }],
         .add "a:2" [{ Param := Param.BytesSize, Value := 20 },
                     { Param := Param.KeysCount, Value := 1 }]]) ∧
      ∃ s, Scan exService Trie.Add exOptionsSeq exTrie exScheduleSeq = some s ∧
        s.trace.filter Event.isAdd =
          [.add "a:1" [{ Param := Param.BytesSize, Value := 10 },
                       { Param := Param.KeysCount, Value := 1 }],
           .add "a:2" [{ Param := Param.BytesSize, Value := 20 },
                       { Param := Param.KeysCount, Value := 1 }]] :=
  ⟨⟨_, Option.eq_some_of_isSome (by decide),
      (scan_adds_each_costed_key_once exService Trie.Add exOptions exTrie exSchedule _
        (Option.eq_some_of_isSome (by decide))).1,
      (scan_adds_each_costed_key_once exService Trie.Add exOptions exTrie exSchedule _
        (Option.eq_some_of_isSome (by decide))).2.1 (by decide)⟩,
    _, Option.eq_some_of_isSome (by decide),
    (scan_adds_each_costed_key_once exService Trie.Add exOptionsSeq exTrie exScheduleSeq _
      (Option.eq_some_of_isSome (by decide))).2.2 rfl⟩

/-- C2: a failing `GetMemoryUsage` does not abort `Scan`. From every reachable
state some continuation lets `Scan` return, and every completed run ends with
`Stop`. In a completed run the error entries are, one for one, the failed
`GetMemoryUsage` calls, each naming its key, and the `Add` calls are, one for
one, the successful calls, so a failing key gets no `Add`. With at least one
worker every key of the stream is queried, also the keys after a failing one,
and every key that succeeds is added. When exactly one call fails (with at least
one worker: when the cost query fails for exactly one key of the `N` in the
stream) there are exactly `N - 1` `Add` calls and exactly one error entry. -/
theorem scan_tolerates_query_failures (svc : RedisServiceInterface)
    (trieAdd : τ → String → List ParamValue → τ)
    (options : ScanOptions) (t : τ) (sched : List Nat) (s : State τ)
    (h : Scan svc trieAdd options t sched = some s) :
    (∀ sched', ∃ ext s', Scan svc trieAdd options t (sched' ++ ext) = some s') ∧
      s.trace.getLast? = some Event.stop ∧
      (s.trace.filter Event.isLogErrorKey).Perm
        ((s.trace.filterMap Event.queriedKey).filterMap (errorEntry svc)) ∧
      (s.trace.filter Event.isAdd).Perm
        ((s.trace.filterMap Event.queriedKey).filterMap (addCall svc)) ∧
      (1 ≤ options.Workers →
        (s.trace.filterMap Event.queriedKey).Perm (svc.ScanKeys options) ∧
        (s.trace.filter Event.isAdd).Perm ((svc.ScanKeys options).filterMap (addCall svc)) ∧
        (s.trace.filter Event.isLogErrorKey).Perm
          ((svc.ScanKeys options).filterMap (errorEntry svc))) ∧
      (((s.trace.filterMap Event.queriedKey).filter (fails svc)).length = 1 →
        (s.trace.filter Event.isAdd).length = (svc.ScanKeys options).length - 1 ∧
        (s.trace.filter Event.isLogErrorKey).length = 1) ∧
      (1 ≤ options.Workers → ((svc.ScanKeys options).filter (fails svc)).length = 1 →
        (s.trace.filter Event.isAdd).length = (svc.ScanKeys options).length - 1 ∧
        (s.trace.filter Event.isLogErrorKey).length = 1) := by
  have hlast : s.trace.getLast? = some Event.stop := by
    obtain ⟨_, _, _, _, _, htr⟩ := scan_some svc trieAdd options t sched s h
    rw [htr, List.getLast?_concat]
  have hmain : 1 ≤ options.Workers →
      (s.trace.filterMap Event.queriedKey).Perm (svc.ScanKeys options) ∧
      (s.trace.filter Event.isAdd).Perm ((svc.ScanKeys options).filterMap (addCall svc)) ∧
      (s.trace.filter Event.isLogErrorKey).Perm
        ((svc.ScanKeys options).filterMap (errorEntry svc)) := fun hw =>
    ⟨scan_queried_perm svc trieAdd options t sched s hw h,
      scan_adds_perm svc trieAdd options t sched s hw h,
      scan_errors_perm svc trieAdd options t sched s hw h⟩
  have hone : 1 ≤ options.Workers → ((svc.ScanKeys options).filter (fails svc)).length = 1 →
      (s.trace.filter Event.isAdd).length = (svc.ScanKeys options).length - 1 ∧
      (s.trace.filter Event.isLogErrorKey).length = 1 := by
    intro hw hf
    obtain ⟨_, ha, he⟩ := hmain hw
    obtain ⟨h1, h2, _⟩ := length_split svc (svc.ScanKeys options)
    have hla := ha.length_eq
    have hle := he.length_eq
    omega
  refine ⟨fun sched' => scan_completes svc trieAdd options t sched', hlast, ?_, ?_, hmain,
    ?_, hone⟩
  · by_cases hw : 1 ≤ options.Workers
    · obtain ⟨hq, _, he⟩ := hmain hw
      exact he.trans (hq.filterMap (errorEntry svc)).symm
    · obtain ⟨_, h2, h3, _⟩ :=
        scan_calls_no_workers svc trieAdd options t sched s (by omega) h
      rw [h2, h3]
      exact List.Perm.refl _
  · by_cases hw : 1 ≤ options.Workers
    · obtain ⟨hq, ha, _⟩ := hmain hw
      exact ha.trans (hq.filterMap (addCall svc)).symm
    · obtain ⟨h1, _, h3, _⟩ :=
        scan_calls_no_workers svc trieAdd options t sched s (by omega) h
      rw [h1, h3]
      exact List.Perm.refl _
  · intro hf
    by_cases hw : 1 ≤ options.Workers
    · obtain ⟨hq, _, _⟩ := hmain hw
      have := (hq.filter (fails svc)).length_eq
      exact hone hw (by omega)
    · obtain ⟨_, _, h3, _⟩ :=
        scan_calls_no_workers svc trieAdd options t sched s (by omega) h
      rw [h3] at hf
      simp at hf

set_option maxRecDepth 100000 in
/-- C2, on an example: of three keys the cost query fails for exactly one. The
run completes, ends with `Stop`, logs one failure and adds the two other keys. -/
theorem scan_tolerates_query_failures_witness :
    ∃ s, Scan exService Trie.Add exOptions exTrie exSchedule = some s ∧
      s.trace.getLast? = some Event.stop ∧
      (s.trace.filter Event.isAdd).length = 3 - 1 ∧
      (s.trace.filter Event.isLogErrorKey).length = 1 :=
  ⟨_, Option.eq_some_of_isSome (by decide),
    (scan_tolerates_query_failures exService Trie.Add exOptions exTrie exSchedule _
      (Option.eq_some_of_isSome (by decide))).2.1,
    (scan_tolerates_query_failures exService Trie.Add exOptions exTrie exSchedule _
      (Option.eq_some_of_isSome (by decide))).2.2.2.2.2.2 (by decide) (by decide)⟩

/-- C4: at every moment of every run the `Increment` calls made never exceed the
`Add` calls made; in a completed run the number of `Increment` calls equals the
number of `Add` calls on the tree and the number of `GetMemoryUsage` calls that
succeeded, so a failed call contributes no `Increment`; with at least one worker
this is the number of keys of the stream with a successful cost query. -/
theorem scan_increments_once_per_added_key (svc : RedisServiceInterface)
    (trieAdd : τ → String → List ParamValue → τ)
    (options : ScanOptions) (t : τ) (sched : List Nat) (s : State τ)
    (h : Scan svc trieAdd options t sched = some s) :
    (∀ sched', List.count Event.increment (run svc trieAdd sched' (scanInit svc options t)).trace
        ≤ ((run svc trieAdd sched' (scanInit svc options t)).trace.filter Event.isAdd).length) ∧
      List.count Event.increment s.trace = (s.trace.filter Event.isAdd).length ∧
      List.count Event.increment s.trace
        = ((s.trace.filterMap Event.queriedKey).filterMap (cost svc)).length ∧
      (1 ≤ options.Workers → List.count Event.increment s.trace
        = ((svc.ScanKeys options).filterMap (cost svc)).length) := by
  obtain ⟨hd, _, hws, _, _, htr⟩ := scan_some svc trieAdd options t sched s h
  have hinc := incrInv_run svc trieAdd options t sched
  unfold IncrInv at hinc
  rw [wsum_allDone owedIncrement (by simp [owedIncrement]) _ hd] at hinc
  have heq : List.count Event.increment s.trace = (s.trace.filter Event.isAdd).length := by
    rw [htr]
    simp [List.filter_append, List.filter, Event.isAdd, List.count_cons]
    simpa using hinc
  have hw1 : 1 ≤ options.Workers → List.count Event.increment s.trace
      = ((svc.ScanKeys options).filterMap (cost svc)).length := by
    intro hw
    rw [heq, (scan_adds_perm svc trieAdd options t sched s hw h).length_eq]
    exact ((length_split svc _).2.2).symm
  refine ⟨?_, heq, ?_, hw1⟩
  · intro sched'
    have := incrInv_run svc trieAdd options t sched'
    unfold IncrInv at this
    omega
  · by_cases hw : 1 ≤ options.Workers
    · rw [hw1 hw]
      exact ((scan_queried_perm svc trieAdd options t sched s hw h).filterMap
        (cost svc)).length_eq.symm
    · obtain ⟨_, _, h3, h4⟩ :=
        scan_calls_no_workers svc trieAdd options t sched s (by omega) h
      rw [h3, h4]
      rfl

set_option maxRecDepth 100000 in
/-- C4, on an example: three keys, one failing; two `Add` calls, two `Increment` calls. -/
theorem scan_increments_once_per_added_key_witness :
    ∃ s, Scan exService Trie.Add exOptions exTrie exSchedule = some s ∧
      List.count Event.increment s.trace = (s.trace.filter Event.isAdd).length ∧
      List.count Event.increment s.trace = 2 :=
  ⟨_, Option.eq_some_of_isSome (by decide),
    (scan_increments_once_per_added_key exService Trie.Add exOptions exTrie exSchedule _
      (Option.eq_some_of_isSome (by decide))).2.1,
    (scan_increments_once_per_added_key exService Trie.Add exOptions exTrie exSchedule _
      (Option.eq_some_of_isSome (by decide))).2.2.2 (by decide)⟩

/-- C5: when the pattern is `*` and `GetKeysCount` succeeds with `n`, a completed
run of `Scan` starts with the `GetKeysCount` call, directly followed by
`Start(n)` and the `ScanKeys` call; all later calls are calls of the workers and
`Stop`, so `GetKeysCount` is called exactly once. -/
theorem scan_wildcard_starts_with_count (svc : RedisServiceInterface)
    (trieAdd : τ → String → List ParamValue → τ)
    (options : ScanOptions) (t : τ) (sched : List Nat) (s : State τ) (n : Int)
    (hp : options.Pattern = "*") (hc : svc.GetKeysCount = .ok n)
    (h : Scan svc trieAdd options t sched = some s) :
    ∃ rest, s.trace = [.getKeysCount, .start n, .scanKeys options] ++ rest ∧
      (∀ e ∈ rest, e.isWorker = true ∨ e = Event.stop) ∧
      List.count Event.getKeysCount s.trace = 1 := by
  obtain ⟨rest, hrest, hall⟩ := scan_shape_stop svc trieAdd options t sched s h
  rw [prologue_count_ok svc options n (Or.inl hp) hc] at hrest
  refine ⟨rest, hrest, hall, ?_⟩
  rw [hrest]
  simp [List.count_cons, List.count_eq_zero_of_not_mem (not_getKeysCount_of_worker rest hall)]

set_option maxRecDepth 100000 in
/-- C5, on an example: the key count is 3. -/
theorem scan_wildcard_starts_with_count_witness :
    ∃ s rest, Scan exService Trie.Add exOptions exTrie exSchedule = some s ∧
      s.trace = [.getKeysCount, .start 3, .scanKeys exOptions] ++ rest ∧
      List.count Event.getKeysCount s.trace = 1 :=
  match scan_wildcard_starts_with_count exService Trie.Add exOptions exTrie exSchedule _ 3
      rfl rfl (Option.eq_some_of_isSome (by decide)) with
  | ⟨rest, h1, _, h3⟩ => ⟨_, rest, Option.eq_some_of_isSome (by decide), h1, h3⟩

/-- C6: when the pattern is unrestricted and `GetKeysCount` fails, `Scan` still
completes; a completed run starts with the `GetKeysCount` call, one error entry,
`Start(0)` and the `ScanKeys` call, and what follows (`rest`: the calls of the
workers and `Stop`) and the resulting tree are those of the run, under the same
schedule, in which `GetKeysCount` succeeds with any `n`. -/
theorem scan_count_failure_is_not_fatal (svc : RedisServiceInterface)
    (trieAdd : τ → String → List ParamValue → τ)
    (options : ScanOptions) (t : τ) (sched : List Nat) (s : State τ) (err : String)
    (hp : options.Pattern = "*" ∨ options.Pattern = "")
    (hc : svc.GetKeysCount = .error err)
    (h : Scan svc trieAdd options t sched = some s) :
    (∀ sched', ∃ ext s', Scan svc trieAdd options t (sched' ++ ext) = some s') ∧
      ∃ rest, s.trace
          = [.getKeysCount, .logErrorKeysCount err, .start 0, .scanKeys options] ++ rest ∧
        (∀ e ∈ rest, e.isWorker = true ∨ e = Event.stop) ∧
        ∀ n : Int, ∃ s', Scan { svc with GetKeysCount := .ok n } trieAdd options t sched
            = some s' ∧
          s'.trace = [.getKeysCount, .start n, .scanKeys options] ++ rest ∧
          s'.result = s.result ∧ s'.keys = s.keys ∧ s'.workers = s.workers ∧
          s'.locked = s.locked := by
  refine ⟨fun sched' => scan_completes svc trieAdd options t sched', ?_⟩
  obtain ⟨rest, hrest, hall⟩ := scan_shape_stop svc trieAdd options t sched s h
  refine ⟨rest, ?_, hall, ?_⟩
  · rw [hrest, prologue_count_error svc options err hp hc]
  · intro n
    obtain ⟨s2, rest2, hs2, e1, e2, e3, e4, e5, e6, _⟩ :=
      scan_sameUpTo svc { svc with GetKeysCount := .ok n } trieAdd options options t sched s
        rfl rfl rfl h
    have hr : rest2 = rest := List.append_cancel_left (e1.symm.trans hrest)
    subst hr
    refine ⟨s2, hs2, ?_, e3, e4, e5, e6⟩
    rw [e2, prologue_count_ok _ options n hp rfl]

set_option maxRecDepth 100000 in
/-- C6, on an example: the key count query fails with `connection refused`. -/
theorem scan_count_failure_is_not_fatal_witness :
    ∃ s rest, Scan exServiceNoCount Trie.Add exOptions exTrie exSchedule = some s ∧
      s.trace = [.getKeysCount, .logErrorKeysCount "connection refused", .start 0,
        .scanKeys exOptions] ++ rest ∧
      ∃ s', Scan { exServiceNoCount with GetKeysCount := .ok 3 } Trie.Add exOptions exTrie
          exSchedule = some s' ∧
        s'.trace = [.getKeysCount, .start 3, .scanKeys exOptions] ++ rest :=
  match (scan_count_failure_is_not_fatal exServiceNoCount Trie.Add exOptions exTrie exSchedule _
      "connection refused" (Or.inl rfl) rfl (Option.eq_some_of_isSome (by decide))).2 with
  | ⟨rest, h1, _, h3⟩ =>
    match h3 3 with
    | ⟨s', h4, h5, _⟩ => ⟨_, rest, Option.eq_some_of_isSome (by decide), h1, s', h4, h5⟩

/-- C7: `Scan` completes, and it returns only after `wg.Wait()`: while some
worker has not returned `Scan` has not returned and `Stop` has not been called.
In a completed run every started worker has returned when `Stop` is called
(with at least one worker the channel is drained), and the trace is: the key
count query (if any), `Start`, the `ScanKeys` call, then the calls the workers
made until the last of them returned (`GetMemoryUsage`, `Add`, `Increment`,
log entries only), then `Stop` as the last call. So the progress sink sees
`Start` once, then the `Increment` calls, then `Stop` once; `Start` precedes
`ScanKeys` and every `Increment`, and `Stop` follows every `Increment` and
every `Add` of every worker. -/
theorem scan_progress_start_increments_stop (svc : RedisServiceInterface)
    (trieAdd : τ → String → List ParamValue → τ)
    (options : ScanOptions) (t : τ) (sched : List Nat) (s : State τ)
    (h : Scan svc trieAdd options t sched = some s) :
    (∀ sched', ∃ ext s', Scan svc trieAdd options t (sched' ++ ext) = some s') ∧
      (∀ sched', allDone (run svc trieAdd sched' (scanInit svc options t)) = false →
        Scan svc trieAdd options t sched' = none) ∧
      (∀ sched', Event.stop ∉ (run svc trieAdd sched' (scanInit svc options t)).trace) ∧
      s.workers.all PC.isDone = true ∧
      s.workers.length = options.Workers.toNat ∧
      (1 ≤ options.Workers → s.keys = []) ∧
      ∃ pre total mid,
        (run svc trieAdd sched (scanInit svc options t)).trace
          = pre ++ [.start total, .scanKeys options] ++ mid ∧
        s.trace = pre ++ [.start total, .scanKeys options] ++ mid ++ [.stop] ∧
        (∀ e ∈ pre, e = Event.getKeysCount ∨ ∃ err, e = Event.logErrorKeysCount err) ∧
        (∀ e ∈ mid, e.isWorker = true) ∧
        s.trace.filter Event.isProgress
          = [.start total] ++ List.replicate (List.count Event.increment mid) .increment
            ++ [.stop] := by
  obtain ⟨hd, hks, hws, _, _, htr⟩ := scan_some svc trieAdd options t sched s h
  refine ⟨fun sched' => scan_completes svc trieAdd options t sched', ?_, ?_, ?_, ?_, ?_, ?_⟩
  · intro sched' hnd
    simp [Scan, hnd]
  · intro sched' hstop
    obtain ⟨rest, hrest, hall⟩ := shapeInv_run svc trieAdd options t sched'
    rw [hrest] at hstop
    rcases List.mem_append.1 hstop with h1 | h1
    · unfold prologue at h1
      rcases List.mem_append.1 h1 with h2 | h2
      · rcases totalCount_events svc options _ h2 with h3 | ⟨err, h3⟩ <;>
          exact absurd h3 (by simp)
      · simp at h2
    · have := hall _ h1
      simp [Event.isWorker] at this
  · rw [hws]
    exact hd
  · rw [hws, run_length]
    simp [scanInit]
  · intro hw
    rw [hks]
    exact final_keys svc trieAdd options t sched hw hd
  · obtain ⟨mid, hmid, hall⟩ := shapeInv_run svc trieAdd options t sched
    refine ⟨(totalCount svc options).2, (totalCount svc options).1, mid, ?_, ?_,
      totalCount_events svc options, hall, ?_⟩
    · rw [hmid]
      rfl
    · rw [htr, hmid]
      rfl
    · have hpre : (totalCount svc options).2.filter Event.isProgress = [] := by
        rw [List.filter_eq_nil_iff]
        intro e he
        rcases totalCount_events svc options e he with h1 | ⟨err, h1⟩ <;> subst h1 <;>
          simp [Event.isProgress]
      rw [htr, hmid]
      unfold prologue
      simp only [List.filter_append, hpre, filter_isProgress_worker mid hall]
      simp [List.filter, Event.isProgress]

set_option maxRecDepth 100000 in
/-- C7, on an example: before any worker has acted `Scan` has not returned; the
completed run has both workers returned and the channel drained at `Stop`, and
the progress sink sees `Start(3)`, two `Increment` calls, `Stop`. -/
theorem scan_progress_start_increments_stop_witness :
    ∃ s, Scan exService Trie.Add exOptions exTrie exSchedule = some s ∧
      Scan exService Trie.Add exOptions exTrie [] = none ∧
      s.workers.all PC.isDone = true ∧ s.workers.length = 2 ∧ s.keys = [] ∧
      ∃ pre total mid,
        s.trace = pre ++ [.start total, .scanKeys exOptions] ++ mid ++ [.stop] ∧
        s.trace.filter Event.isProgress
          = [.start total] ++ List.replicate (List.count Event.increment mid) .increment
            ++ [.stop] :=
  match scan_progress_start_increments_stop exService Trie.Add exOptions exTrie exSchedule _
      (Option.eq_some_of_isSome (by decide)) with
  | ⟨_, h2, _, h4, h5, h6, pre, total, mid, _, h8, _, _, h11⟩ =>
    ⟨_, Option.eq_some_of_isSome (by decide), h2 [] (by decide), h4, h5, h6 (by decide),
      pre, total, mid, h8, h11⟩

/-- C9: the total key count is queried exactly when the pattern is `*` or empty.
In a completed run with such a pattern `GetKeysCount` is the first call and is
called once; with any other pattern it is never called and the run starts
with `Start(0)` and the `ScanKeys` call. For the empty pattern `Scan` does what
it does for `*`: given the same key stream from the key source, the run under
the same schedule makes the same calls (the `ScanKeys` call carrying the
options as given) and yields the same tree. -/
theorem scan_queries_count_iff_unrestricted (svc : RedisServiceInterface)
    (trieAdd : τ → String → List ParamValue → τ)
    (options : ScanOptions) (t : τ) (sched : List Nat) (s : State τ)
    (h : Scan svc trieAdd options t sched = some s) :
    ((options.Pattern = "*" ∨ options.Pattern = "") →
        ∃ rest, s.trace = Event.getKeysCount :: rest ∧ Event.getKeysCount ∉ rest) ∧
      (options.Pattern ≠ "*" → options.Pattern ≠ "" →
        Event.getKeysCount ∉ s.trace ∧
        ∃ rest, s.trace = [.start 0, .scanKeys options] ++ rest) ∧
      (options.Pattern = "" →
        svc.ScanKeys { options with Pattern := "*" } = svc.ScanKeys options →
        ∃ s' rest, Scan svc trieAdd { options with Pattern := "*" } t sched = some s' ∧
          s.trace = (getKeysCount svc).2
            ++ [.start (getKeysCount svc).1, .scanKeys options] ++ rest ∧
          s'.trace = (getKeysCount svc).2
            ++ [.start (getKeysCount svc).1, .scanKeys { options with Pattern := "*" }]
            ++ rest ∧
          s'.result = s.result) := by
  obtain ⟨rest, hrest, hall⟩ := scan_shape_stop svc trieAdd options t sched s h
  have hng := not_getKeysCount_of_worker rest hall
  refine ⟨?_, ?_, ?_⟩
  · intro hp
    cases hc : svc.GetKeysCount with
    | error err =>
      rw [prologue_count_error svc options err hp hc] at hrest
      exact ⟨_, hrest, by simp [hng]⟩
    | ok n =>
      rw [prologue_count_ok svc options n hp hc] at hrest
      exact ⟨_, hrest, by simp [hng]⟩
  · intro h1 h2
    rw [prologue_restricted svc options h1 h2] at hrest
    exact ⟨by rw [hrest]; simp [hng], rest, hrest⟩
  · intro hp hk
    obtain ⟨s2, rest2, hs2, e1, e2, e3, _⟩ :=
      scan_sameUpTo svc svc trieAdd options { options with Pattern := "*" } t sched s
        rfl hk.symm rfl h
    refine ⟨s2, rest2, hs2, ?_, ?_, e3⟩
    · rw [e1]
      simp [prologue, totalCount, hp]
    · rw [e2]
      simp [prologue, totalCount]

set_option maxRecDepth 100000 in
/-- C9, on examples. With the empty pattern the count is queried first, and the
run agrees with the run for `*`; with the pattern `a:*` the count is never
queried and the progress sink is started with total 0. -/
theorem scan_queries_count_iff_unrestricted_witness :
    (∃ s, Scan exService Trie.Add exOptionsEmpty exTrie exSchedule = some s ∧
      (∃ rest, s.trace = Event.getKeysCount :: rest ∧ Event.getKeysCount ∉ rest) ∧
      ∃ s' rest, Scan exService Trie.Add { exOptionsEmpty with Pattern := "*" } exTrie
          exSchedule = some s' ∧
        s.trace = (getKeysCount exService).2
          ++ [.start (getKeysCount exService).1, .scanKeys exOptionsEmpty] ++ rest ∧
        s'.trace = (getKeysCount exService).2
          ++ [.start (getKeysCount exService).1,
              .scanKeys { exOptionsEmpty with Pattern := "*" }] ++ rest ∧
        s'.result = s.result) ∧
      ∃ s, Scan exService Trie.Add exOptionsPattern exTrie exSchedule = some s ∧
        Event.getKeysCount ∉ s.trace ∧
        ∃ rest, s.trace = [.start 0, .scanKeys exOptionsPattern] ++ rest :=
  ⟨⟨_, Option.eq_some_of_isSome (by decide),
      (scan_queries_count_iff_unrestricted exService Trie.Add exOptionsEmpty exTrie exSchedule _
        (Option.eq_some_of_isSome (by decide))).1 (Or.inr rfl),
      (scan_queries_count_iff_unrestricted exService Trie.Add exOptionsEmpty exTrie exSchedule _
        (Option.eq_some_of_isSome (by decide))).2.2 rfl rfl⟩,
    _, Option.eq_some_of_isSome (by decide),
    (scan_queries_count_iff_unrestricted exService Trie.Add exOptionsPattern exTrie exSchedule _
      (Option.eq_some_of_isSome (by decide))).2.1 (by decide) (by decide)⟩

/-- C10: `Scan` starts exactly `max(options.Workers, 0)` workers, and their
number does not change. When `options.Workers <= 0`, under every schedule `Scan`
returns with the tree unchanged and the whole key stream still in the channel;
the calls made are the key count query (if any), `Start` once, `ScanKeys` once
and `Stop` once, and `GetMemoryUsage` is never called. -/
theorem scan_starts_max_workers_zero (svc : RedisServiceInterface)
    (trieAdd : τ → String → List ParamValue → τ)
    (options : ScanOptions) (t : τ) (sched : List Nat) :
    ((scanInit svc options t).workers.length : Int) = max options.Workers 0 ∧
      (run svc trieAdd sched (scanInit svc options t)).workers.length
        = (scanInit svc options t).workers.length ∧
      (options.Workers ≤ 0 →
        ∃ s, Scan svc trieAdd options t sched = some s ∧
          s.result = t ∧ s.keys = svc.ScanKeys options ∧ s.workers = [] ∧
          s.trace = (totalCount svc options).2
            ++ [.start (totalCount svc options).1, .scanKeys options, .stop] ∧
          (∀ e ∈ (totalCount svc options).2,
            e = Event.getKeysCount ∨ ∃ err, e = Event.logErrorKeysCount err) ∧
          s.trace.filterMap Event.queriedKey = []) := by
  refine ⟨?_, run_length svc trieAdd sched _, ?_⟩
  · simp [scanInit]
  · intro hw
    have hs := scan_no_workers svc trieAdd options t sched hw
    refine ⟨_, hs, rfl, rfl, rfl, ?_, totalCount_events svc options, ?_⟩
    · simp [prologue]
    · exact (scan_calls_no_workers svc trieAdd options t sched _ hw hs).2.2.1

/-- C10, on an example with `Workers = 0` and three keys in the stream. -/
theorem scan_starts_max_workers_zero_witness :
    ∃ s, Scan exService Trie.Add exOptionsIdle exTrie exSchedule = some s ∧
      s.keys = ["a:1", "bad", "a:2"] ∧
      s.trace = [.getKeysCount, .start 3, .scanKeys exOptionsIdle, .stop] ∧
      s.trace.filterMap Event.queriedKey = [] :=
  match (scan_starts_max_workers_zero exService Trie.Add exOptionsIdle exTrie exSchedule).2.2
      (by decide) with
  | ⟨s, h1, _, h3, _, h5, _, h7⟩ => ⟨s, h1, h3, h5, h7⟩

/-- C8: at every moment of every run of `Scan`, the mutex is locked exactly when
one worker is between `Lock` and `Unlock`, and no second worker is; so at most
one worker is inside the tree's `Add`, it holds the mutex, and the tree it read
is the current tree: no two `Add` calls overlap. The tree is at every moment,
and when `Scan` has returned (the mutex then released), the tree obtained from
the initial one by applying the `Add` calls made so far one after another, in
the order in which they were made. -/
theorem scan_adds_are_serialized (svc : RedisServiceInterface)
    (trieAdd : τ → String → List ParamValue → τ)
    (options : ScanOptions) (t : τ) (sched : List Nat) :
    (List.countP PC.inCS (run svc trieAdd sched (scanInit svc options t)).workers
        = if (run svc trieAdd sched (scanInit svc options t)).locked then 1 else 0) ∧
      List.countP PC.isInAdd (run svc trieAdd sched (scanInit svc options t)).workers ≤ 1 ∧
      (∀ key res seen,
        PC.inAdd key res seen ∈ (run svc trieAdd sched (scanInit svc options t)).workers →
        (run svc trieAdd sched (scanInit svc options t)).locked = true ∧
        seen = (run svc trieAdd sched (scanInit svc options t)).result) ∧
      (run svc trieAdd sched (scanInit svc options t)).result
        = applyAdds trieAdd t
            ((run svc trieAdd sched (scanInit svc options t)).trace.filter Event.isAdd) ∧
      (∀ s, Scan svc trieAdd options t sched = some s →
        s.locked = false ∧
        s.result = applyAdds trieAdd t (s.trace.filter Event.isAdd)) := by
  have hinv := mutexInv_run svc trieAdd options t sched
  have hcount := hinv.count
  rw [wsum_csCount] at hcount
  have hle := wsum_le inAddCount csCount inAddCount_le_csCount
    (run svc trieAdd sched (scanInit svc options t)).workers
  rw [wsum_csCount, wsum_inAddCount, hcount] at hle
  have hfold : (run svc trieAdd sched (scanInit svc options t)).result
      = applyAdds trieAdd t
          ((run svc trieAdd sched (scanInit svc options t)).trace.filter Event.isAdd) := by
    rw [applyAdds_filter]
    exact hinv.fold
  refine ⟨hcount, ?_, ?_, hfold, ?_⟩
  · split at hle <;> omega
  · intro key res seen hm
    refine ⟨?_, hinv.snap _ hm⟩
    have hpos : 0 < List.countP PC.inCS
        (run svc trieAdd sched (scanInit svc options t)).workers :=
      List.countP_pos_iff.2 ⟨_, hm, rfl⟩
    rw [hcount] at hpos
    split at hpos
    · assumption
    · omega
  · intro s hs
    obtain ⟨hd, _, _, hl, hr, htr⟩ := scan_some svc trieAdd options t sched s hs
    have hz := wsum_allDone csCount (by simp [csCount, PC.inCS]) _ hd
    rw [wsum_csCount, hcount] at hz
    refine ⟨?_, ?_⟩
    · rw [hl]
      split at hz
      · omega
      · rename_i hnl
        simpa using hnl
    · rw [hr, htr, hfold]
      simp [List.filter_append, List.filter, Event.isAdd]

set_option maxRecDepth 100000 in
/-- C8, on an example with contention: worker 1 waits for the mutex held by
worker 0; the run completes, and the tree is the one built by the two `Add`
calls in the order of the trace. -/
theorem scan_adds_are_serialized_witness :
    (run exService Trie.Add [0, 0, 0, 1, 1, 1, 1, 1, 1, 0, 1]
        (scanInit exService exOptions exTrie)).locked = true ∧
      (step exService Trie.Add 1 (run exService Trie.Add [0, 0, 0, 1, 1, 1, 1, 1, 1, 0, 1]
        (scanInit exService exOptions exTrie))).isNone = true ∧
      List.countP PC.isInAdd (run exService Trie.Add [0, 0, 0, 1, 1, 1, 1, 1, 1, 0, 1]
        (scanInit exService exOptions exTrie)).workers ≤ 1 ∧
      ∃ s, Scan exService Trie.Add exOptions exTrie exScheduleContended = some s ∧
        s.locked = false ∧
        s.result = applyAdds Trie.Add exTrie (s.trace.filter Event.isAdd) :=
  ⟨by decide, by decide,
    (scan_adds_are_serialized exService Trie.Add exOptions exTrie
      [0, 0, 0, 1, 1, 1, 1, 1, 1, 0, 1]).2.1,
    _, Option.eq_some_of_isSome (by decide),
    (scan_adds_are_serialized exService Trie.Add exOptions exTrie exScheduleContended).2.2.2.2 _
      (Option.eq_some_of_isSome (by decide))⟩

/-- C3: after a completed scan with at least one worker on an initially empty
tree (the tree modelled from the specification), the root's `KeysCount` is the
number of keys of the stream whose cost query succeeded and the root's
`BytesSize` is the sum of their costs, under every schedule of the workers; a
second scan with the same cost function whose stream delivers the same keys in
another order, with any number (at least one) of workers, any schedule and any
tree configuration, ends with the same root totals. -/
theorem scan_root_totals (svc : RedisServiceInterface) (options : ScanOptions)
    (separators : List Char) (maxChildren : Int) (sched : List Nat) (s : State Trie)
    (hw : 1 ≤ options.Workers)
    (h : Scan svc Trie.Add options (NewTrie separators maxChildren) sched = some s) :
    s.result.Root.metrics Param.KeysCount
        = (((svc.ScanKeys options).filterMap (cost svc)).length : Int) ∧
      s.result.Root.metrics Param.BytesSize
        = ((svc.ScanKeys options).filterMap (cost svc)).sum ∧
      ∀ (svc2 : RedisServiceInterface) (options2 : ScanOptions) (separators2 : List Char)
        (maxChildren2 : Int) (sched2 : List Nat) (s2 : State Trie),
        svc2.GetMemoryUsage = svc.GetMemoryUsage →
        (svc2.ScanKeys options2).Perm (svc.ScanKeys options) →
        1 ≤ options2.Workers →
        Scan svc2 Trie.Add options2 (NewTrie separators2 maxChildren2) sched2 = some s2 →
        s2.result.Root.metrics Param.KeysCount = s.result.Root.metrics Param.KeysCount ∧
        s2.result.Root.metrics Param.BytesSize = s.result.Root.metrics Param.BytesSize := by
  have hroot : ∀ (seps : List Char) (mc : Int) (p : Param),
      (NewTrie seps mc).Root.metrics p = 0 := by
    intro seps mc p
    rfl
  have h1 := scan_root_metrics svc options _ sched s Param.KeysCount hw h
  have h2 := scan_root_metrics svc options _ sched s Param.BytesSize hw h
  rw [hroot, (addCall_values svc _).2] at h1
  rw [hroot, (addCall_values svc _).1] at h2
  refine ⟨by simpa using h1, by simpa using h2, ?_⟩
  intro svc2 options2 separators2 maxChildren2 sched2 s2 hm hperm hw2 hs2
  have g1 := scan_root_metrics svc2 options2 _ sched2 s2 Param.KeysCount hw2 hs2
  have g2 := scan_root_metrics svc2 options2 _ sched2 s2 Param.BytesSize hw2 hs2
  have hcall : addCall svc2 = addCall svc := by
    funext k
    simp [addCall, hm]
  have e1 := scan_root_metrics svc options _ sched s Param.KeysCount hw h
  have e2 := scan_root_metrics svc options _ sched s Param.BytesSize hw h
  rw [hroot] at g1 g2 e1 e2
  rw [hcall] at g1 g2
  have p1 := ((hperm.filterMap (addCall svc)).map (addedValue Param.KeysCount)).sum_eq
  have p2 := ((hperm.filterMap (addCall svc)).map (addedValue Param.BytesSize)).sum_eq
  exact ⟨by rw [g1, e1, p1], by rw [g2, e2, p2]⟩

set_option maxRecDepth 100000 in
/-- C3, on an example: keys `a:1` (cost 10), `bad` (query fails), `a:2` (cost 20);
the root ends with `KeysCount` 2 and `BytesSize` 30. -/
theorem scan_root_totals_witness :
    ∃ s, Scan exService Trie.Add exOptions (NewTrie [':'] 10) exSchedule = some s ∧
      s.result.Root.metrics Param.KeysCount = 2 ∧
      s.result.Root.metrics Param.BytesSize = 30 :=
  ⟨_, Option.eq_some_of_isSome (by decide),
    (scan_root_totals exService exOptions [':'] 10 exSchedule _ (by decide)
      (Option.eq_some_of_isSome (by decide))).1,
    (scan_root_totals exService exOptions [':'] 10 exSchedule _ (by decide)
      (Option.eq_some_of_isSome (by decide))).2.1⟩

end Machine

end RedisInventory
